import Mathlib

/-!
# Verification of the Kimi tiktoken oracle (`src/oracle/kimi_oracle.py`)

This file shallowly embeds the tokenizer pipeline of the repository.

Code that is present in the repository's source (the rank-table loader in
`build_encoding`, the special-token table builder `build_special_tokens`,
the segmentation pattern `kimi_pat_str`, and the encode/decode dispatch in
`main`) is translated directly from that source.  The tokenizer engine
itself (regex segmentation, the BPE merge loop, special-token
interpolation and decoding, all provided by the external `tiktoken`
library) is not part of the repository's sources; those definitions are
modelled from the specification, as indicated in their doc comments.

Conventions: text is modelled as `List Char`; raw bytes as `Nat` values
`< 256`; machine integers as `Int`/`Nat`; fallible operations return
`Except`.
-/

set_option maxRecDepth 100000

namespace KimiOracle

/-- Errors of the loading phase (`build_encoding`): in the Python source
these are the `ValueError` of tuple unpacking on `line.split(maxsplit=1)`,
the `ValueError` of `int(rank_str)`, and the `binascii.Error` of
`base64.b64decode`.  The spec groups all of them as `LoadError`. -/
inductive LoadError where
  | splitFailure
  | rankParseFailure
  | base64Failure
  deriving DecidableEq, Repr

/-- Errors of the tokenizing phase, following the spec's error taxonomy
(§7). -/
inductive TokError where
  | disallowedSpecialToken
  | unknownTokenId (id : Nat)
  | vocabularyInconsistency
  | unsegmentableInput
  | invalidUtf8
  deriving DecidableEq, Repr

/-- Sequential fallible map, short-circuiting on the first error; this is
`List.mapM` for `Except`, written as plain recursion for easy induction. -/
def mapE {α β ε : Type} (f : α → Except ε β) : List α → Except ε (List β)
  | [] => .ok []
  | a :: as =>
    match f a with
    | .error e => .error e
    | .ok b =>
      match mapE f as with
      | .error e => .error e
      | .ok bs => .ok (b :: bs)

/-! ## Python-dict association lists

Python `dict` insertion overwrites the value of an existing key and
otherwise appends; lookup returns the value of the matching key. -/

/-- Insert with Python-dict overwrite semantics. -/
def dictInsert {α β : Type} [BEq α] (d : List (α × β)) (k : α) (v : β) :
    List (α × β) :=
  if d.any (fun p => p.1 == k) then
    d.map (fun p => if p.1 == k then (k, v) else p)
  else
    d ++ [(k, v)]

/-- Lookup: value of the first entry with the given key. -/
def dictGet {α β : Type} [BEq α] (d : List (α × β)) (k : α) : Option β :=
  (d.find? (fun p => p.1 == k)).map (fun p => p.2)

/-! ## Integer parsing (Python `int(...)`)

`int(key)` / `int(rank_str)` accept surrounding whitespace, an optional
sign and a nonempty run of decimal digits, and raise `ValueError`
otherwise. -/

/-- Model of Python `str.strip()`: drop whitespace from both ends. -/
def pyStrip (s : String) : String :=
  String.mk
    (((s.toList.dropWhile Char.isWhitespace).reverse.dropWhile
      Char.isWhitespace).reverse)

/-- Value of a nonempty all-decimal-digit character run. -/
def digitsVal? (cs : List Char) : Option Nat :=
  if cs ≠ [] ∧ cs.all Char.isDigit then
    some (cs.foldl (fun a c => a * 10 + (c.toNat - 48)) 0)
  else
    none

/-- Model of Python `int(s)` on strings: strip whitespace, optional
sign, nonempty decimal digit run. -/
def intParse (s : String) : Option Int :=
  match (pyStrip s).toList with
  | '+' :: ds => (digitsVal? ds).map Int.ofNat
  | '-' :: ds => (digitsVal? ds).map (fun n => -(Int.ofNat n))
  | ds => (digitsVal? ds).map Int.ofNat

/-! ## `line.split(maxsplit=1)` -/

/-- Model of Python `str.split(maxsplit=1)` on an already-stripped
string: first whitespace-free field, then the remainder after the
whitespace run. -/
def splitMax1 (s : String) : List String :=
  let cs := s.toList
  let f1 := cs.takeWhile (fun c => !c.isWhitespace)
  let rest := (cs.drop f1.length).dropWhile Char.isWhitespace
  if f1 = [] then []
  else if rest = [] then [String.mk f1]
  else [String.mk f1, String.mk rest]

/-! ## `base64.b64decode` -/

/-- Value of a base64 alphabet character. -/
def b64Char? (c : Char) : Option Nat :=
  if 'A' ≤ c ∧ c ≤ 'Z' then some (c.toNat - 65)
  else if 'a' ≤ c ∧ c ≤ 'z' then some (c.toNat - 97 + 26)
  else if '0' ≤ c ∧ c ≤ '9' then some (c.toNat - 48 + 52)
  else if c = '+' then some 62
  else if c = '/' then some 63
  else none

/-- Decode quads of base64 characters; `=` padding is accepted only at
the end.  A leftover group of the wrong shape is a `base64Failure`
(Python `binascii.Error`). -/
def b64Quads : List Char → Except LoadError (List Nat)
  | [] => .ok []
  | [a, b, '=', '='] =>
    match b64Char? a, b64Char? b with
    | some va, some vb => .ok [va * 4 + vb / 16]
    | _, _ => .error .base64Failure
  | [a, b, c, '='] =>
    match b64Char? a, b64Char? b, b64Char? c with
    | some va, some vb, some vc =>
      .ok [va * 4 + vb / 16, (vb % 16) * 16 + vc / 4]
    | _, _, _ => .error .base64Failure
  | a :: b :: c :: d :: rest =>
    match b64Char? a, b64Char? b, b64Char? c, b64Char? d with
    | some va, some vb, some vc, some vd =>
      match b64Quads rest with
      | .ok bs =>
        .ok ((va * 4 + vb / 16) :: ((vb % 16) * 16 + vc / 4) ::
          ((vc % 4) * 64 + vd) :: bs)
      | .error e => .error e
    | _, _, _, _ => .error .base64Failure
  | _ => .error .base64Failure

/-- Model of `base64.b64decode(s)` (default `validate=False`): discard
characters outside the alphabet and padding, then decode quads. -/
def b64decode (s : String) : Except LoadError (List Nat) :=
  b64Quads (s.toList.filter (fun c => (b64Char? c).isSome || c == '='))

/-! ## Rank-table loading (`build_encoding`, lines 76-82 of the source)

The file is modelled as its list of lines (`splitlines()`).  Per line:
strip; skip if empty; unpack `split(maxsplit=1)` into exactly two
fields (else `ValueError`); parse the rank integer (else `ValueError`;
Python evaluates the assignment's right-hand side `int(rank_str)`
before the subscript key `base64.b64decode(b64)`); base64-decode the
byte-string field. -/

/-- Parse one stripped, nonempty rank-table line. -/
def parseRankLine (line : String) : Except LoadError (List Nat × Int) :=
  match splitMax1 line with
  | [b64s, rankStr] =>
    match intParse rankStr with
    | none => .error .rankParseFailure
    | some r =>
      match b64decode b64s with
      | .ok bs => .ok (bs, r)
      | .error e => .error e
  | _ => .error .splitFailure

/-- Loop of `build_encoding` accumulating the `ranks` dict. -/
def buildRanksAux (acc : List (List Nat × Int)) :
    List String → Except LoadError (List (List Nat × Int))
  | [] => .ok acc
  | l :: ls =>
    let t := pyStrip l
    if t = "" then buildRanksAux acc ls
    else
      match parseRankLine t with
      | .error e => .error e
      | .ok (bs, r) => buildRanksAux (dictInsert acc bs r) ls

/-- The rank-table loader of `build_encoding`, over the file's lines. -/
def buildRanks (lines : List String) : Except LoadError (List (List Nat × Int)) :=
  buildRanksAux [] lines

/-- A rank-table line is malformed in the sense of the spec's §4.1 step 3:
after stripping it does not split into exactly two fields, or its rank
field does not parse as an integer. -/
def malformedRankLine (line : String) : Bool :=
  match splitMax1 (pyStrip line) with
  | [_, r] => (intParse r).isNone
  | _ => true

/-! ## Special-token table builder (`build_special_tokens`, source lines
55-72) -/

/-- `NUM_RESERVED_SPECIAL_TOKENS` of the source. -/
def NUM_RESERVED_SPECIAL_TOKENS : Nat := 256

/-- One entry of `tokenizer_config["added_tokens_decoder"]`: the raw
string key, and `some content` exactly when the value is a dict whose
`"content"` field is a string (the two `isinstance` checks of the
source), else `none`. -/
structure MetaEntry where
  key : String
  content : Option String
  deriving DecidableEq, Repr

/-- First loop of `build_special_tokens`: the `mapping` dict from parsed
integer ids to content strings; entries whose key fails `int(...)` or
whose content check fails are skipped. -/
def buildMapping (entries : List MetaEntry) : List (Int × String) :=
  entries.foldl
    (fun d e =>
      match intParse e.key, e.content with
      | some k, some c => dictInsert d k c
      | _, _ => d)
    []

/-- Decimal digit characters of `n`, most significant first (the
rendering of Python's f-string interpolation); fuel-driven. -/
def natDecimalAux : Nat → Nat → List Char
  | 0, _ => []
  | fuel + 1, n =>
    if n < 10 then [Char.ofNat (48 + n)]
    else natDecimalAux fuel (n / 10) ++ [Char.ofNat (48 + n % 10)]

/-- Decimal rendering of a natural number. -/
def natDecimal (n : Nat) : String := String.mk (natDecimalAux (n + 1) n)

/-- The name computed for a reserved id: the mapping's content if
present for that exact id, else the synthetic placeholder
`"<|reserved_token_<id>|>"`. -/
def computedName (mapping : List (Int × String)) (tokenId : Nat) : String :=
  (dictGet mapping (Int.ofNat tokenId)).getD
    ("<|reserved_token_" ++ natDecimal tokenId ++ "|>")

/-- `build_special_tokens`: for every id in
`[numBase, numBase + 256)` insert `computedName ↦ id` into the
name-keyed `special_tokens` dict. -/
def build_special_tokens (entries : List MetaEntry) (numBaseTokens : Nat) :
    List (String × Nat) :=
  let mapping := buildMapping entries
  (List.range NUM_RESERVED_SPECIAL_TOKENS).foldl
    (fun st k =>
      let tokenId := numBaseTokens + k
      dictInsert st (computedName mapping tokenId) tokenId)
    []

/-! ## Segmenter

Modelled from the spec: the segmentation engine (the `tiktoken` regex
machinery applying `kimi_pat_str`) is not part of the repository's
sources.  The eight alternative rules below follow §4.2 of the spec and
the pattern string `kimi_pat_str` of the source, first-match-wins at
each scan position, each rule matching greedily.  The Unicode category
classes are approximated by the corresponding `Char` predicates (Han by
the main CJK block, `\p{Lu}`/`\p{Ll}` by ASCII case predicates,
`\p{N}` by decimal digits, `\s` by ASCII whitespace). -/

/-- Han-script codepoint (main CJK unified ideographs block). -/
def isHanC (c : Char) : Bool := decide (0x4E00 ≤ c.toNat ∧ c.toNat ≤ 0x9FFF)

/-- Uppercase-flavored letter (`[\p{Lu}\p{Lt}\p{Lm}\p{Lo}\p{M}&&[^\p{Han}]]`). -/
def isUpperF (c : Char) : Bool := decide (65 ≤ c.toNat ∧ c.toNat ≤ 90)

/-- Lowercase-flavored letter (`[\p{Ll}\p{Lm}\p{Lo}\p{M}&&[^\p{Han}]]`). -/
def isLowerF (c : Char) : Bool := decide (97 ≤ c.toNat ∧ c.toNat ≤ 122)

/-- Letter (`\p{L}`). -/
def isLetterC (c : Char) : Bool := isUpperF c || isLowerF c || isHanC c

/-- Decimal digit (`\p{N}`). -/
def isDigitC (c : Char) : Bool := decide (48 ≤ c.toNat ∧ c.toNat ≤ 57)

/-- Whitespace (`\s`). -/
def isWsC (c : Char) : Bool := c.isWhitespace

/-- Line break (`[\r\n]`). -/
def isCRLF (c : Char) : Bool := decide (c.toNat = 13 ∨ c.toNat = 10)

/-- Symbol codepoint (`[^\s\p{L}\p{N}]`). -/
def isSymC (c : Char) : Bool := !isWsC c && !isLetterC c && !isDigitC c

/-- Optional lead codepoint of rules 2/3 (`[^\r\n\p{L}\p{N}]`). -/
def isLeadC (c : Char) : Bool := !isCRLF c && !isLetterC c && !isDigitC c

/-- Length of the maximal prefix run satisfying `p`. -/
def runLen (p : Char → Bool) (cs : List Char) : Nat := (cs.takeWhile p).length

/-- Length of the optional English contraction suffix
`(?i:'s|'t|'re|'ve|'m|'ll|'d)` (0 when absent). -/
def suffixLen (cs : List Char) : Nat :=
  match cs with
  | '\'' :: c :: rest =>
    let cl := c.toLower
    if cl = 's' ∨ cl = 't' ∨ cl = 'm' ∨ cl = 'd' then 2
    else if cl = 'r' then
      match rest with
      | e :: _ => if e.toLower = 'e' then 3 else 0
      | [] => 0
    else if cl = 'v' then
      match rest with
      | e :: _ => if e.toLower = 'e' then 3 else 0
      | [] => 0
    else if cl = 'l' then
      match rest with
      | e :: _ => if e.toLower = 'l' then 3 else 0
      | [] => 0
    else 0
  | _ => 0

/-- Rule 1: maximal Han run. -/
def rule1 (cs : List Char) : Option Nat :=
  let n := runLen isHanC cs
  if n = 0 then none else some n

/-- Length of the optional single lead codepoint. -/
def leadLen (cs : List Char) : Nat :=
  match cs with
  | c :: _ => if isLeadC c then 1 else 0
  | [] => 0

/-- Rule 2: optional lead, uppercase-flavored run, nonempty
lowercase-flavored run, optional contraction suffix. -/
def rule2 (cs : List Char) : Option Nat :=
  let ld := leadLen cs
  let u := runLen isUpperF (cs.drop ld)
  let l := runLen isLowerF (cs.drop (ld + u))
  if l = 0 then none
  else some (ld + u + l + suffixLen (cs.drop (ld + u + l)))

/-- Rule 3: optional lead, nonempty uppercase-flavored run,
lowercase-flavored run, optional contraction suffix. -/
def rule3 (cs : List Char) : Option Nat :=
  let ld := leadLen cs
  let u := runLen isUpperF (cs.drop ld)
  if u = 0 then none
  else
    let l := runLen isLowerF (cs.drop (ld + u))
    some (ld + u + l + suffixLen (cs.drop (ld + u + l)))

/-- Rule 4: run of 1-3 decimal digits. -/
def rule4 (cs : List Char) : Option Nat :=
  let n := min (runLen isDigitC cs) 3
  if n = 0 then none else some n

/-- Rule 5: optional leading space, nonempty symbol run, trailing line
breaks. -/
def rule5 (cs : List Char) : Option Nat :=
  let sp := match cs with
    | ' ' :: _ => 1
    | _ => 0
  let s := runLen isSymC (cs.drop sp)
  if s = 0 then none
  else some (sp + s + runLen isCRLF (cs.drop (sp + s)))

/-- Rule 6: whitespace run containing a line break, up to and including
its last line-break codepoint (the regex `\s*[\r\n]+` after
backtracking). -/
def rule6 (cs : List Char) : Option Nat :=
  let w := runLen isWsC cs
  match ((cs.take w).reverse.findIdx? isCRLF) with
  | some k => some (w - k)
  | none => none

/-- Rule 7: whitespace not followed by a non-whitespace codepoint
(`\s+(?!\S)`): the maximal run when it reaches the end of input, else
the run minus its final codepoint. -/
def rule7 (cs : List Char) : Option Nat :=
  let w := runLen isWsC cs
  if w = 0 then none
  else if w = cs.length then some w
  else if 2 ≤ w then some (w - 1)
  else none

/-- Rule 8: maximal whitespace run. -/
def rule8 (cs : List Char) : Option Nat :=
  let w := runLen isWsC cs
  if w = 0 then none else some w

/-- One segmentation step: the first rule that matches at the current
position, returning the length of its match. -/
def matchStep (cs : List Char) : Option Nat :=
  rule1 cs <|> rule2 cs <|> rule3 cs <|> rule4 cs <|> rule5 cs <|>
    rule6 cs <|> rule7 cs <|> rule8 cs

/-- Fuel-driven segmentation loop; the fuel is an upper bound on the
number of chunks, set to the input length by `segment`. -/
def segmentAux : Nat → List Char → List (List Char)
  | _, [] => []
  | 0, cs => [cs]
  | fuel + 1, cs =>
    match matchStep cs with
    | none => [cs]
    | some n => cs.take n :: segmentAux fuel (cs.drop n)

/-- Modelled from the spec: the Segmenter (§4.2) splitting a text into
chunks by the eight pattern rules of `kimi_pat_str`. -/
def segment (cs : List Char) : List (List Char) :=
  segmentAux cs.length cs

/-! ## Rank table and BPE merger

Modelled from the spec: the in-memory rank table and the byte-pair
merge loop live in the external `tiktoken` library (§3, §4.3). -/

/-- The in-memory rank table: byte-string to rank associations (§3). -/
structure RankTable where
  pairs : List (List Nat × Nat)
  deriving DecidableEq, Repr

/-- Base vocabulary size `N`. -/
def numBase (t : RankTable) : Nat := t.pairs.length

/-- Rank of a byte-string, if present. -/
def rankOf (t : RankTable) (bs : List Nat) : Option Nat :=
  (t.pairs.find? (fun p => p.1 == bs)).map (fun p => p.2)

/-- Reverse lookup: byte-string of a rank, if present. -/
def byteOfRank (t : RankTable) (r : Nat) : Option (List Nat) :=
  (t.pairs.find? (fun p => p.2 == r)).map (fun p => p.1)

/-- Consistency of a rank table (§3): ranks are pairwise distinct and
lie in `[0, N)` (hence are dense), and every single byte is present
(§4.3 step 5's invariant). -/
def consistent (t : RankTable) : Prop :=
  (t.pairs.map (fun p => p.2)).Nodup ∧
  (∀ p ∈ t.pairs, p.2 < numBase t) ∧
  (∀ b, b < 256 → (rankOf t [b]).isSome = true)

instance (t : RankTable) : Decidable (consistent t) := by
  unfold consistent
  have : Decidable (∀ b, b < 256 → (rankOf t [b]).isSome = true) :=
    Nat.decidableBallLT 256 (fun b _ => (rankOf t [b]).isSome = true)
  exact instDecidableAnd

/-- Index and rank of the lowest-rank adjacent pair found in the table,
ties broken by leftmost position; `i0` is the index offset. -/
def bestPairAux (t : RankTable) : List (List Nat) → Nat → Option (Nat × Nat)
  | a :: b :: rest, i =>
    let cur := (rankOf t (a ++ b)).map (fun r => (i, r))
    let best := bestPairAux t (b :: rest) (i + 1)
    match cur, best with
    | none, o => o
    | some c, none => some c
    | some (i1, r1), some (i2, r2) =>
      if r1 ≤ r2 then some (i1, r1) else some (i2, r2)
  | _, _ => none

/-- The merge candidate of one BPE scan (§4.3 step 2). -/
def bestPair (t : RankTable) (ps : List (List Nat)) : Option (Nat × Nat) :=
  bestPairAux t ps 0

/-- Merge the adjacent pieces at index `i` into one piece. -/
def mergeAt : List (List Nat) → Nat → List (List Nat)
  | a :: b :: rest, 0 => (a ++ b) :: rest
  | a :: rest, i + 1 => a :: mergeAt rest i
  | ps, _ => ps

/-- `bestPairAux` only reports in-bounds pairs whose concatenation is
ranked. -/
theorem bestPairAux_spec (t : RankTable) :
    ∀ (ps : List (List Nat)) (i0 j r : Nat),
      bestPairAux t ps i0 = some (j, r) →
      i0 ≤ j ∧ ∃ a b, ps.get? (j - i0) = some a ∧
        ps.get? (j - i0 + 1) = some b ∧ rankOf t (a ++ b) = some r := by
  intro ps
  induction ps with
  | nil => intro i0 j r h; simp [bestPairAux] at h
  | cons a ps ih =>
    intro i0 j r h
    match ps, h with
    | [], h => simp [bestPairAux] at h
    | b :: rest, h =>
      rw [bestPairAux] at h
      rcases hcur : rankOf t (a ++ b) with _ | rc <;> rw [hcur] at h
      · simp only [Option.map_none'] at h
        rcases hbest : bestPairAux t (b :: rest) (i0 + 1) with _ | o <;>
          rw [hbest] at h
        · simp at h
        · obtain ⟨hle, a', b', h1, h2, h3⟩ := ih (i0 + 1) j r (hbest.trans h)
          refine ⟨by omega, a', b', ?_, ?_, h3⟩
          · have : j - i0 = (j - (i0 + 1)) + 1 := by omega
            rw [this]; simpa using h1
          · have : j - i0 + 1 = (j - (i0 + 1) + 1) + 1 := by omega
            rw [this]; simpa using h2
      · simp only [Option.map_some'] at h
        rcases hbest : bestPairAux t (b :: rest) (i0 + 1) with _ | ⟨i2, r2⟩ <;>
          rw [hbest] at h
        · simp only [Option.some.injEq, Prod.mk.injEq] at h
          refine ⟨by omega, a, b, ?_, ?_, ?_⟩ <;>
            simp [← h.1, Nat.sub_self, h.2 ▸ hcur]
        · simp only at h
          by_cases hcmp : rc ≤ r2
          · rw [if_pos hcmp] at h
            simp only [Option.some.injEq, Prod.mk.injEq] at h
            refine ⟨by omega, a, b, ?_, ?_, ?_⟩ <;>
              simp [← h.1, Nat.sub_self, h.2 ▸ hcur]
          · rw [if_neg hcmp] at h
            obtain ⟨hle, a', b', h1, h2, h3⟩ := ih (i0 + 1) j r (h ▸ hbest)
            refine ⟨by omega, a', b', ?_, ?_, h3⟩
            · have : j - i0 = (j - (i0 + 1)) + 1 := by omega
              rw [this]; simpa using h1
            · have : j - i0 + 1 = (j - (i0 + 1) + 1) + 1 := by omega
              rw [this]; simpa using h2

/-- Merging at an in-bounds index shortens the list. -/
theorem mergeAt_length :
    ∀ (ps : List (List Nat)) (i : Nat) (b : List Nat),
      ps.get? (i + 1) = some b → (mergeAt ps i).length < ps.length := by
  intro ps
  induction ps with
  | nil => intro i b h; simp at h
  | cons a ps ih =>
    intro i b h
    match i, ps, h with
    | 0, c :: rest, h => simp [mergeAt]
    | i + 1, ps, h =>
      have := ih i b (by simpa using h)
      match ps, this with
      | c :: rest, this => simpa [mergeAt] using this

/-- Fuel-driven BPE merge loop; each iteration merges one pair and
shortens the piece list, so fuel equal to the initial piece count never
runs out before the loop's own stopping condition. -/
def bpeMergeAux (t : RankTable) : Nat → List (List Nat) → List (List Nat)
  | 0, ps => ps
  | fuel + 1, ps =>
    match bestPair t ps with
    | none => ps
    | some (i, _) => bpeMergeAux t fuel (mergeAt ps i)

/-- Modelled from the spec: the BPE merge loop (§4.3): repeatedly merge
the lowest-rank adjacent pair until none is found. -/
def bpeMerge (t : RankTable) (ps : List (List Nat)) : List (List Nat) :=
  bpeMergeAux t ps.length ps

/-! ## UTF-8

Text crosses the byte boundary twice: chunks are encoded to bytes
before merging, and decode re-assembles bytes into text.  Decoding is
lenient: invalid sequences become the standard replacement marker
U+FFFD, the policy the program uses (`tiktoken`'s
`decode(..., errors="replace")` default). -/

/-- UTF-8 encoding of one scalar value. -/
def utf8EncodeChar (c : Char) : List Nat :=
  if c.toNat < 128 then [c.toNat]
  else if c.toNat < 2048 then [192 + c.toNat / 64, 128 + c.toNat % 64]
  else if c.toNat < 65536 then
    [224 + c.toNat / 4096, 128 + c.toNat / 64 % 64, 128 + c.toNat % 64]
  else
    [240 + c.toNat / 262144, 128 + c.toNat / 4096 % 64,
      128 + c.toNat / 64 % 64, 128 + c.toNat % 64]

/-- UTF-8 encoding of a text. -/
def utf8Enc (cs : List Char) : List Nat := cs.flatMap utf8EncodeChar

/-- UTF-8 continuation byte. -/
def isContB (b : Nat) : Bool := decide (128 ≤ b ∧ b < 192)

/-- The replacement marker U+FFFD. -/
def replChar : Char := Char.ofNat 0xFFFD

/-- Fuel-driven lenient UTF-8 decoder; each step consumes one
well-formed sequence or one malformed byte, and one unit of fuel, so
any fuel at least the byte count is enough. -/
def utf8DecodeAux : Nat → List Nat → List Char
  | _, [] => []
  | 0, _ :: _ => []
  | fuel + 1, b :: rest =>
    if b < 128 then Char.ofNat b :: utf8DecodeAux fuel rest
    else if 194 ≤ b ∧ b ≤ 223 then
      match rest with
      | b1 :: rest1 =>
        if isContB b1 then
          Char.ofNat ((b - 192) * 64 + (b1 - 128)) :: utf8DecodeAux fuel rest1
        else replChar :: utf8DecodeAux fuel rest
      | [] => [replChar]
    else if 224 ≤ b ∧ b ≤ 239 then
      match rest with
      | b1 :: b2 :: rest2 =>
        if isContB b1 ∧ isContB b2 ∧ (b = 224 → 160 ≤ b1) ∧
            (b = 237 → b1 < 160) then
          Char.ofNat ((b - 224) * 4096 + (b1 - 128) * 64 + (b2 - 128)) ::
            utf8DecodeAux fuel rest2
        else replChar :: utf8DecodeAux fuel rest
      | _ => replChar :: utf8DecodeAux fuel rest
    else if 240 ≤ b ∧ b ≤ 244 then
      match rest with
      | b1 :: b2 :: b3 :: rest3 =>
        if isContB b1 ∧ isContB b2 ∧ isContB b3 ∧ (b = 240 → 144 ≤ b1) ∧
            (b = 244 → b1 < 144) then
          Char.ofNat ((b - 240) * 262144 + (b1 - 128) * 4096 +
              (b2 - 128) * 64 + (b3 - 128)) :: utf8DecodeAux fuel rest3
        else replChar :: utf8DecodeAux fuel rest
      | _ => replChar :: utf8DecodeAux fuel rest
    else replChar :: utf8DecodeAux fuel rest

/-- Modelled from the spec: lenient UTF-8 decoding (§4.4): well-formed
sequences decode to their scalar value, malformed bytes become the
replacement marker. -/
def utf8DecodeLenient (bs : List Nat) : List Char :=
  utf8DecodeAux bs.length bs

/-! ## Encoder / Decoder

Modelled from the spec (§4.4) and the dispatch in `main` (source lines
130-135): `allow_special_tokens=true` maps to
`enc.encode(text, allowed_special="all")` (special substrings are
recognized and contribute their reserved id), and
`allow_special_tokens=false` maps to
`enc.encode(text, disallowed_special=())` (special substrings are
ordinary text, nothing is disallowed). -/

/-- BPE-encode one chunk's bytes (§4.3): merge, then map every final
piece to its rank; a rankless final piece is the fatal
`VocabularyInconsistencyError`. -/
def encodeChunk (t : RankTable) (bs : List Nat) : Except TokError (List Nat) :=
  mapE
    (fun p =>
      match rankOf t p with
      | some r => .ok r
      | none => .error .vocabularyInconsistency)
    (bpeMerge t (bs.map (fun b => [b])))

/-- Encode a text with no special-token recognition: segment, then
BPE-encode each chunk (the `disallowed_special=()` path of source line
133). -/
def encodeFalse (t : RankTable) (cs : List Char) : Except TokError (List Nat) :=
  match mapE (fun ch => encodeChunk t (utf8Enc ch)) (segment cs) with
  | .ok idss => .ok idss.flatten
  | .error e => .error e

/-- The special-token table used by the engine: names (as character
lists) with their reserved ids. -/
abbrev SpecialTable : Type := List (List Char × Nat)

/-- One table entry's contribution to the best match at the head of
`cs`: a longer matching nonempty name replaces the accumulator. -/
def specialsStep (cs : List Char) (acc : Option (List Char × Nat))
    (p : List Char × Nat) : Option (List Char × Nat) :=
  if p.1 ≠ [] ∧ p.1.isPrefixOf cs then
    match acc with
    | none => some p
    | some q => if q.1.length < p.1.length then some p else acc
  else acc

/-- Best special-token match at the head of `cs`: the longest matching
nonempty name, earliest table entry winning ties. -/
def specialsAt (st : SpecialTable) (cs : List Char) :
    Option (List Char × Nat) :=
  st.foldl (specialsStep cs) none

/-- Leftmost special-token occurrence: scan position, name and id. -/
def findSpecial (st : SpecialTable) : List Char → Option (Nat × List Char × Nat)
  | [] => none
  | c :: rest =>
    match specialsAt st (c :: rest) with
    | some (n, id) => some (0, n, id)
    | none => (findSpecial st rest).map (fun x => (x.1 + 1, x.2))

/-- Fuel-driven loop of the `allowed_special="all"` encode path: split
at each leftmost special occurrence, emit its reserved id, and encode
the surrounding text normally. -/
def encodeTrueAux (t : RankTable) (st : SpecialTable) :
    Nat → List Char → Except TokError (List Nat)
  | 0, cs => encodeFalse t cs
  | fuel + 1, cs =>
    match findSpecial st cs with
    | none => encodeFalse t cs
    | some (i, n, id) =>
      match encodeFalse t (cs.take i) with
      | .error e => .error e
      | .ok a =>
        match encodeTrueAux t st fuel (cs.drop (i + n.length)) with
        | .error e => .error e
        | .ok b => .ok (a ++ id :: b)

/-- Encode with special-token recognition (the `allowed_special="all"`
path of source line 131). -/
def encodeTrue (t : RankTable) (st : SpecialTable) (cs : List Char) :
    Except TokError (List Nat) :=
  encodeTrueAux t st (cs.length + 1) cs

/-- The encode dispatch of `main` (source lines 130-133) on the
`allow_special_tokens` policy flag. -/
def encode (t : RankTable) (st : SpecialTable) (allowSpecialTokens : Bool)
    (cs : List Char) : Except TokError (List Nat) :=
  if allowSpecialTokens then encodeTrue t st cs else encodeFalse t cs

/-- Does the text contain a (nonempty) special-token name as a
substring? -/
def containsSpecialB (st : SpecialTable) (cs : List Char) : Bool :=
  st.any (fun p =>
    p.1 ≠ [] &&
      (List.range (cs.length + 1)).any (fun i => p.1.isPrefixOf (cs.drop i)))

/-- Modelled from the spec: the "forbid" policy of §4.4 (the
`disallowed_special="all"` default of `tiktoken`, which `main` does not
select): reject any input containing a special-token substring. -/
def encodeForbid (t : RankTable) (st : SpecialTable) (cs : List Char) :
    Except TokError (List Nat) :=
  if containsSpecialB st cs then .error .disallowedSpecialToken
  else encodeFalse t cs

/-- Resolve one token id to its byte-string: base-vocabulary reverse
lookup, then special-token reverse lookup; unknown ids fail with
`UnknownTokenIdError` (§4.4 decode contract). -/
def resolveId (t : RankTable) (st : SpecialTable) (i : Nat) :
    Except TokError (List Nat) :=
  match byteOfRank t i with
  | some bs => .ok bs
  | none =>
    match st.find? (fun p => p.2 == i) with
    | some p => .ok (utf8Enc p.1)
    | none => .error (.unknownTokenId i)

/-- Modelled from the spec: decode (§4.4): resolve every id, concatenate
the byte-strings, and decode UTF-8 leniently (the `errors="replace"`
policy the program uses). -/
def decodeIds (t : RankTable) (st : SpecialTable) (ids : List Nat) :
    Except TokError (List Char) :=
  match mapE (resolveId t st) ids with
  | .ok bss => .ok (utf8DecodeLenient bss.flatten)
  | .error e => .error e

/-! ## Supporting lemmas -/

theorem mapE_append {α β ε : Type} (f : α → Except ε β) (l₁ l₂ : List α)
    (b₁ b₂ : List β) (h₁ : mapE f l₁ = .ok b₁) (h₂ : mapE f l₂ = .ok b₂) :
    mapE f (l₁ ++ l₂) = .ok (b₁ ++ b₂) := by
  induction l₁ generalizing b₁ with
  | nil =>
    simp only [mapE] at h₁
    cases h₁
    simpa using h₂
  | cons a as ih =>
    rw [mapE] at h₁
    rcases hf : f a with e | b <;> rw [hf] at h₁
    · cases h₁
    · rcases hm : mapE f as with e | bs <;> rw [hm] at h₁
      · cases h₁
      · cases h₁
        rw [List.cons_append, mapE, hf, ih bs hm]
        rfl

/-- Every chunk list produced by `segmentAux` flattens back to its
input: segmentation partitions the text (§8 partition invariant). -/
theorem segmentAux_flatten (fuel : Nat) :
    ∀ cs : List Char, (segmentAux fuel cs).flatten = cs := by
  induction fuel with
  | zero => intro cs; cases cs <;> simp [segmentAux]
  | succ fuel ih =>
    intro cs
    cases cs with
    | nil => simp [segmentAux]
    | cons c rest =>
      rcases h : matchStep (c :: rest) with _ | n <;>
        simp [segmentAux, h, ih, List.take_append_drop]

/-- Segmentation partitions the text. -/
theorem segment_flatten (cs : List Char) : (segment cs).flatten = cs :=
  segmentAux_flatten cs.length cs

/-- Merging preserves the concatenated bytes. -/
theorem mergeAt_flatten :
    ∀ (ps : List (List Nat)) (i : Nat), (mergeAt ps i).flatten = ps.flatten := by
  intro ps
  induction ps with
  | nil => intro i; cases i <;> simp [mergeAt]
  | cons a ps ih =>
    intro i
    match i, ps with
    | 0, [] => simp [mergeAt]
    | 0, b :: rest => simp [mergeAt]
    | i + 1, ps => simpa [mergeAt] using ih i

/-- Pieces merged at a ranked pair stay ranked. -/
theorem mergeAt_ok (P : List Nat → Prop) :
    ∀ (ps : List (List Nat)) (i : Nat) (a b : List Nat),
      ps.get? i = some a → ps.get? (i + 1) = some b →
      P (a ++ b) → (∀ p ∈ ps, P p) → ∀ q ∈ mergeAt ps i, P q := by
  intro ps
  induction ps with
  | nil => intro i a b h1 _ _ _ q hq; simp at h1
  | cons x ps ih =>
    intro i a b h1 h2 hP hall q hq
    match i, ps with
    | 0, [] => simp at h2
    | 0, y :: rest =>
      rcases (by simpa [mergeAt] using hq : q = x ++ y ∨ q ∈ rest) with h | h
      · rw [h, show x = a from by simpa using h1,
          show y = b from by simpa using h2]
        exact hP
      · exact hall q (by simp [h])
    | i + 1, ps =>
      rcases (by simpa [mergeAt] using hq : q = x ∨ q ∈ mergeAt ps i) with h | h
      · exact h ▸ hall x (by simp)
      · exact ih i a b (by simpa using h1) (by simpa using h2) hP
          (fun p hp => hall p (by simp [hp])) q h

/-- The BPE merge loop preserves the concatenated bytes (§4.3
contract). -/
theorem bpeMergeAux_flatten (t : RankTable) :
    ∀ (fuel : Nat) (ps : List (List Nat)),
      (bpeMergeAux t fuel ps).flatten = ps.flatten := by
  intro fuel
  induction fuel with
  | zero => intro ps; rfl
  | succ n ih =>
    intro ps
    rw [bpeMergeAux]
    rcases hb : bestPair t ps with _ | ⟨i, r⟩
    · rfl
    · rw [ih (mergeAt ps i), mergeAt_flatten]

/-- `bpeMerge` preserves the concatenated bytes. -/
theorem bpeMerge_flatten (t : RankTable) (ps : List (List Nat)) :
    (bpeMerge t ps).flatten = ps.flatten :=
  bpeMergeAux_flatten t ps.length ps

/-- The BPE merge loop keeps every piece ranked, provided the initial
pieces are (merges only happen at pairs found in the table). -/
theorem bpeMergeAux_ok (t : RankTable) :
    ∀ (fuel : Nat) (ps : List (List Nat)),
      (∀ p ∈ ps, (rankOf t p).isSome = true) →
      ∀ q ∈ bpeMergeAux t fuel ps, (rankOf t q).isSome = true := by
  intro fuel
  induction fuel with
  | zero => intro ps hall; exact hall
  | succ n ih =>
    intro ps hall
    rw [bpeMergeAux]
    rcases hb : bestPair t ps with _ | ⟨i, r⟩
    · exact hall
    · obtain ⟨-, a, b, h1, h2, h3⟩ := bestPairAux_spec t ps 0 i r hb
      exact ih (mergeAt ps i)
        (mergeAt_ok _ ps i a b (by simpa using h1) (by simpa using h2)
          (by simp [h3]) hall)

/-- `bpeMerge` keeps every piece ranked. -/
theorem bpeMerge_ok (t : RankTable) (ps : List (List Nat))
    (hall : ∀ p ∈ ps, (rankOf t p).isSome = true) :
    ∀ q ∈ bpeMerge t ps, (rankOf t q).isSome = true :=
  bpeMergeAux_ok t ps.length ps hall

/-- A rank returned by `rankOf` is a table value. -/
theorem rankOf_mem_values (t : RankTable) (bs : List Nat) (r : Nat)
    (h : rankOf t bs = some r) : r ∈ t.pairs.map (fun p => p.2) := by
  rcases hf : t.pairs.find? (fun p => p.1 == bs) with _ | p
  · rw [rankOf, hf] at h; cases h
  · rw [rankOf, hf] at h
    cases h
    exact List.mem_map_of_mem _ (List.mem_of_find?_eq_some hf)

/-- Under consistency, ranks of table entries are below `N`. -/
theorem rankOf_lt_numBase (t : RankTable) (h : consistent t) (bs : List Nat)
    (r : Nat) (hr : rankOf t bs = some r) : r < numBase t := by
  obtain ⟨p, hp, hpr⟩ := List.mem_map.mp (rankOf_mem_values t bs r hr)
  exact hpr ▸ h.2.1 p hp

/-- Under consistency, reverse lookup inverts `rankOf`. -/
theorem byteOfRank_rankOf (t : RankTable) (h : consistent t) (bs : List Nat)
    (r : Nat) (hr : rankOf t bs = some r) : byteOfRank t r = some bs := by
  rcases hf : t.pairs.find? (fun p => p.1 == bs) with _ | p
  · rw [rankOf, hf] at hr; cases hr
  · rw [rankOf, hf] at hr
    cases hr
    have hpmem := List.mem_of_find?_eq_some hf
    have hpfst : p.1 = bs := by simpa using List.find?_some hf
    have hsome : (t.pairs.find? (fun q => q.2 == p.2)).isSome = true :=
      List.find?_isSome.mpr ⟨p, hpmem, by simp⟩
    rcases hg : t.pairs.find? (fun q => q.2 == p.2) with _ | q
    · rw [hg] at hsome; cases hsome
    · have hqmem := List.mem_of_find?_eq_some hg
      have hqsnd : q.2 = p.2 := by simpa using List.find?_some hg
      have hqp : q = p := List.inj_on_of_nodup_map h.1 hqmem hpmem hqsnd
      rw [byteOfRank, hg, hqp]
      simp [hpfst]

/-- UTF-8 encoding produces bytes. -/
theorem utf8EncodeChar_lt (c : Char) : ∀ b ∈ utf8EncodeChar c, b < 256 := by
  intro b hb
  have hv : c.toNat < 55296 ∨ 57343 < c.toNat ∧ c.toNat < 1114112 := c.valid
  rw [utf8EncodeChar] at hb
  by_cases h1 : c.toNat < 128
  · rw [if_pos h1] at hb
    simp at hb
    omega
  · rw [if_neg h1] at hb
    by_cases h2 : c.toNat < 2048
    · rw [if_pos h2] at hb
      simp at hb
      rcases hb with hb | hb <;> omega
    · rw [if_neg h2] at hb
      by_cases h3 : c.toNat < 65536
      · rw [if_pos h3] at hb
        simp at hb
        rcases hb with hb | hb | hb <;> omega
      · rw [if_neg h3] at hb
        simp at hb
        rcases hb with hb | hb | hb | hb <;> omega

/-- UTF-8 encoding of a text produces bytes. -/
theorem utf8Enc_lt (cs : List Char) : ∀ b ∈ utf8Enc cs, b < 256 := by
  intro b hb
  obtain ⟨c, -, hc⟩ := List.mem_flatMap.mp hb
  exact utf8EncodeChar_lt c b hc

/-- The decoder's fuel does not matter once it covers the byte count. -/
theorem utf8DecodeAux_fuel :
    ∀ (f1 : Nat) (bs : List Nat) (f2 : Nat), bs.length ≤ f1 → bs.length ≤ f2 →
      utf8DecodeAux f1 bs = utf8DecodeAux f2 bs := by
  intro f1
  induction f1 with
  | zero =>
    intro bs f2 h1 h2
    have : bs = [] := by
      cases bs with
      | nil => rfl
      | cons b rest => simp at h1
    subst this
    cases f2 <;> rfl
  | succ g1 ih =>
    intro bs f2 h1 h2
    cases bs with
    | nil => cases f2 <;> rfl
    | cons b rest =>
      cases f2 with
      | zero => simp at h2
      | succ g2 =>
        rcases rest with _ | ⟨b1, _ | ⟨b2, _ | ⟨b3, rest3⟩⟩⟩ <;>
            simp only [List.length_cons, List.length_nil] at h1 h2 <;>
            simp only [utf8DecodeAux]
        · have e0 : utf8DecodeAux g1 [b1] = utf8DecodeAux g2 [b1] :=
            ih [b1] g2 (by simp; omega) (by simp; omega)
          have e1 : utf8DecodeAux g1 ([] : List Nat) =
              utf8DecodeAux g2 ([] : List Nat) := by
            cases g1 <;> cases g2 <;> rfl
          split_ifs <;> simp [e0, e1]
        · have e0 : utf8DecodeAux g1 [b1, b2] = utf8DecodeAux g2 [b1, b2] :=
            ih [b1, b2] g2 (by simp; omega) (by simp; omega)
          have e1 : utf8DecodeAux g1 [b2] = utf8DecodeAux g2 [b2] :=
            ih [b2] g2 (by simp; omega) (by simp; omega)
          have e2 : utf8DecodeAux g1 ([] : List Nat) =
              utf8DecodeAux g2 ([] : List Nat) := by
            cases g1 <;> cases g2 <;> rfl
          split_ifs <;> simp [e0, e1, e2]
        · have e0 : utf8DecodeAux g1 (b1 :: b2 :: b3 :: rest3) =
              utf8DecodeAux g2 (b1 :: b2 :: b3 :: rest3) :=
            ih _ g2 (by simp; omega) (by simp; omega)
          have e1 : utf8DecodeAux g1 (b2 :: b3 :: rest3) =
              utf8DecodeAux g2 (b2 :: b3 :: rest3) :=
            ih _ g2 (by simp; omega) (by simp; omega)
          have e2 : utf8DecodeAux g1 (b3 :: rest3) =
              utf8DecodeAux g2 (b3 :: rest3) :=
            ih _ g2 (by simp; omega) (by simp; omega)
          have e3 : utf8DecodeAux g1 rest3 = utf8DecodeAux g2 rest3 :=
            ih _ g2 (by omega) (by omega)
          split_ifs <;> simp [e0, e1, e2, e3]

/-- One decoding step undoes one character's encoding. -/
theorem utf8DecodeAux_enc (c : Char) (g : Nat) (bs : List Nat) :
    utf8DecodeAux (g + 1) (utf8EncodeChar c ++ bs) = c :: utf8DecodeAux g bs := by
  have hv : c.toNat < 55296 ∨ 57343 < c.toNat ∧ c.toNat < 1114112 := c.valid
  have hofn : Char.ofNat c.toNat = c := Char.ofNat_toNat c
  by_cases h1 : c.toNat < 128
  · have he : utf8EncodeChar c = [c.toNat] := by
      rw [utf8EncodeChar, if_pos h1]
    rw [he, List.cons_append, List.nil_append]
    simp only [utf8DecodeAux]
    rw [if_pos h1, hofn]
  · by_cases h2 : c.toNat < 2048
    · have he : utf8EncodeChar c = [192 + c.toNat / 64, 128 + c.toNat % 64] := by
        rw [utf8EncodeChar, if_neg h1, if_pos h2]
      have hccont : isContB (128 + c.toNat % 64) = true := by
        simp only [isContB, decide_eq_true_eq]; omega
      have harith : (192 + c.toNat / 64 - 192) * 64 +
          (128 + c.toNat % 64 - 128) = c.toNat := by omega
      rw [he, List.cons_append, List.cons_append, List.nil_append]
      simp only [utf8DecodeAux]
      rw [if_neg (by omega), if_pos (by constructor <;> omega), if_pos hccont,
        harith, hofn]
    · by_cases h3 : c.toNat < 65536
      · have he : utf8EncodeChar c =
            [224 + c.toNat / 4096, 128 + c.toNat / 64 % 64,
              128 + c.toNat % 64] := by
          rw [utf8EncodeChar, if_neg h1, if_neg h2, if_pos h3]
        have hcond : isContB (128 + c.toNat / 64 % 64) = true ∧
            isContB (128 + c.toNat % 64) = true ∧
            (224 + c.toNat / 4096 = 224 → 160 ≤ 128 + c.toNat / 64 % 64) ∧
            (224 + c.toNat / 4096 = 237 → 128 + c.toNat / 64 % 64 < 160) :=
          ⟨by simp only [isContB, decide_eq_true_eq]; omega,
            by simp only [isContB, decide_eq_true_eq]; omega,
            by intro h; omega, by intro h; omega⟩
        have harith : (224 + c.toNat / 4096 - 224) * 4096 +
            (128 + c.toNat / 64 % 64 - 128) * 64 +
            (128 + c.toNat % 64 - 128) = c.toNat := by omega
        rw [he, List.cons_append, List.cons_append, List.cons_append,
          List.nil_append]
        simp only [utf8DecodeAux]
        rw [if_neg (by omega), if_neg (by omega),
          if_pos (by constructor <;> omega), if_pos hcond, harith, hofn]
      · have he : utf8EncodeChar c =
            [240 + c.toNat / 262144, 128 + c.toNat / 4096 % 64,
              128 + c.toNat / 64 % 64, 128 + c.toNat % 64] := by
          rw [utf8EncodeChar, if_neg h1, if_neg h2, if_neg h3]
        have hcond : isContB (128 + c.toNat / 4096 % 64) = true ∧
            isContB (128 + c.toNat / 64 % 64) = true ∧
            isContB (128 + c.toNat % 64) = true ∧
            (240 + c.toNat / 262144 = 240 → 144 ≤ 128 + c.toNat / 4096 % 64) ∧
            (240 + c.toNat / 262144 = 244 → 128 + c.toNat / 4096 % 64 < 144) :=
          ⟨by simp only [isContB, decide_eq_true_eq]; omega,
            by simp only [isContB, decide_eq_true_eq]; omega,
            by simp only [isContB, decide_eq_true_eq]; omega,
            by intro h; omega, by intro h; omega⟩
        have harith : (240 + c.toNat / 262144 - 240) * 262144 +
            (128 + c.toNat / 4096 % 64 - 128) * 4096 +
            (128 + c.toNat / 64 % 64 - 128) * 64 +
            (128 + c.toNat % 64 - 128) = c.toNat := by omega
        rw [he, List.cons_append, List.cons_append, List.cons_append,
          List.cons_append, List.nil_append]
        simp only [utf8DecodeAux]
        rw [if_neg (by omega), if_neg (by omega), if_neg (by omega),
          if_pos (by constructor <;> omega), if_pos hcond, harith, hofn]

/-- The encoded form of a character is nonempty and at most 4 bytes. -/
theorem utf8EncodeChar_length (c : Char) :
    1 ≤ (utf8EncodeChar c).length ∧ (utf8EncodeChar c).length ≤ 4 := by
  rw [utf8EncodeChar]
  split_ifs <;> simp

/-- Lenient UTF-8 decoding undoes encoding (§8 round-trip, text side). -/
theorem utf8_roundtrip (cs : List Char) :
    utf8DecodeLenient (utf8Enc cs) = cs := by
  have main : ∀ (cs : List Char) (f : Nat), (utf8Enc cs).length ≤ f →
      utf8DecodeAux f (utf8Enc cs) = cs := by
    intro cs
    induction cs with
    | nil => intro f h; cases f <;> rfl
    | cons c rest ih =>
      intro f h
      have hsplit : utf8Enc (c :: rest) = utf8EncodeChar c ++ utf8Enc rest := by
        rw [utf8Enc, List.flatMap_cons]; rfl
      rw [hsplit] at h ⊢
      have h1 := (utf8EncodeChar_length c).1
      rw [List.length_append] at h
      cases f with
      | zero => omega
      | succ g =>
        rw [utf8DecodeAux_enc c g (utf8Enc rest)]
        rw [utf8DecodeAux_fuel g (utf8Enc rest) (utf8Enc rest).length
          (by omega) (le_refl _)]
        rw [ih (utf8Enc rest).length (le_refl _)]
  exact main cs (utf8Enc cs).length (le_refl _)

/-- Flattening singleton pieces restores the byte list. -/
theorem flatten_map_singleton (bs : List Nat) :
    (bs.map (fun b => [b])).flatten = bs := by
  induction bs with
  | nil => rfl
  | cons b rest ih => simp [ih]

/-- Ranked pieces all encode to ranks that resolve back to the same
pieces. -/
theorem mapE_rank_resolve (t : RankTable) (st : SpecialTable)
    (h : consistent t) :
    ∀ ps : List (List Nat), (∀ p ∈ ps, (rankOf t p).isSome = true) →
      ∃ ids,
        mapE
          (fun p =>
            match rankOf t p with
            | some r => Except.ok r
            | none => Except.error TokError.vocabularyInconsistency)
          ps = .ok ids ∧
        (∀ i ∈ ids, i < numBase t) ∧ mapE (resolveId t st) ids = .ok ps := by
  intro ps
  induction ps with
  | nil => exact fun _ => ⟨[], rfl, by simp, rfl⟩
  | cons p ps ih =>
    intro hall
    obtain ⟨ids, hm, hlt, hres⟩ := ih (fun q hq => hall q (by simp [hq]))
    rcases hr : rankOf t p with _ | r
    · have := hall p (by simp)
      rw [hr] at this
      cases this
    · refine ⟨r :: ids, ?_, ?_, ?_⟩
      · rw [mapE, hr, hm]
      · intro i hi
        rcases List.mem_cons.mp hi with hi | hi
        · exact hi ▸ rankOf_lt_numBase t h p r hr
        · exact hlt i hi
      · have hby : byteOfRank t r = some p := byteOfRank_rankOf t h p r hr
        rw [mapE, resolveId, hby, hres]

/-- One chunk's BPE encoding succeeds, stays below `N`, and resolves
back to the chunk's bytes. -/
theorem encodeChunk_spec (t : RankTable) (st : SpecialTable)
    (h : consistent t) (bs : List Nat) (hb : ∀ b ∈ bs, b < 256) :
    ∃ ids, encodeChunk t bs = .ok ids ∧ (∀ i ∈ ids, i < numBase t) ∧
      ∃ ps, mapE (resolveId t st) ids = .ok ps ∧ ps.flatten = bs := by
  have hsingles : ∀ p ∈ bs.map (fun b => [b]), (rankOf t p).isSome = true := by
    intro p hp
    obtain ⟨b, hbmem, hbp⟩ := List.mem_map.mp hp
    exact hbp ▸ h.2.2 b (hb b hbmem)
  have hok := bpeMerge_ok t (bs.map (fun b => [b])) hsingles
  obtain ⟨ids, hm, hlt, hres⟩ :=
    mapE_rank_resolve t st h (bpeMerge t (bs.map (fun b => [b]))) hok
  refine ⟨ids, hm, hlt, bpeMerge t (bs.map (fun b => [b])), hres, ?_⟩
  rw [bpeMerge_flatten t _, flatten_map_singleton]

/-- Chunk-list form of `encodeChunk_spec`. -/
theorem encodeChunks_spec (t : RankTable) (st : SpecialTable)
    (h : consistent t) :
    ∀ L : List (List Char),
      ∃ idss, mapE (fun ch => encodeChunk t (utf8Enc ch)) L = .ok idss ∧
        (∀ i ∈ idss.flatten, i < numBase t) ∧
        ∃ ps, mapE (resolveId t st) idss.flatten = .ok ps ∧
          ps.flatten = utf8Enc L.flatten := by
  intro L
  induction L with
  | nil => exact ⟨[], rfl, by simp, [], rfl, by simp [utf8Enc]⟩
  | cons ch L ih =>
    obtain ⟨idss, hm, hlt, ps2, hres2, hfl2⟩ := ih
    obtain ⟨ids, hc, hlt1, ps1, hres1, hfl1⟩ :=
      encodeChunk_spec t st h (utf8Enc ch) (utf8Enc_lt ch)
    refine ⟨ids :: idss, ?_, ?_, ps1 ++ ps2, ?_, ?_⟩
    · rw [mapE, hc, hm]
    · intro i hi
      rw [List.flatten_cons, List.mem_append] at hi
      rcases hi with hi | hi
      · exact hlt1 i hi
      · exact hlt i hi
    · rw [List.flatten_cons]
      exact mapE_append _ _ _ _ _ hres1 hres2
    · rw [List.flatten_append, hfl1, hfl2, List.flatten_cons]
      simp [utf8Enc, List.flatMap_append]

/-- `encodeFalse` succeeds on every text over a consistent table, its
ids are base-vocabulary ranks, and they resolve back to the text's
UTF-8 bytes. -/
theorem encodeFalse_spec (t : RankTable) (st : SpecialTable)
    (h : consistent t) (cs : List Char) :
    ∃ ids, encodeFalse t cs = .ok ids ∧ (∀ i ∈ ids, i < numBase t) ∧
      ∃ ps, mapE (resolveId t st) ids = .ok ps ∧ ps.flatten = utf8Enc cs := by
  obtain ⟨idss, hm, hlt, ps, hres, hfl⟩ := encodeChunks_spec t st h (segment cs)
  refine ⟨idss.flatten, ?_, hlt, ps, hres, ?_⟩
  · rw [encodeFalse, hm]
  · rw [hfl, segment_flatten]

/-- Decoding inverts `encodeFalse` (§8 round-trip). -/
theorem decodeIds_encodeFalse (t : RankTable) (st : SpecialTable)
    (h : consistent t) (cs : List Char) :
    ∃ ids, encodeFalse t cs = .ok ids ∧ (∀ i ∈ ids, i < numBase t) ∧
      decodeIds t st ids = .ok cs := by
  obtain ⟨ids, he, hlt, ps, hres, hfl⟩ := encodeFalse_spec t st h cs
  refine ⟨ids, he, hlt, ?_⟩
  simp only [decodeIds, hres, hfl, utf8_roundtrip]

/-- Is an `Except` value a success? -/
def isOkE {ε α : Type} : Except ε α → Bool
  | .ok _ => true
  | .error _ => false

/-- A pointwise-successful fallible map succeeds. -/
theorem mapE_ok_of_all {α β ε : Type} (f : α → Except ε β) :
    ∀ l : List α, (∀ a ∈ l, isOkE (f a) = true) → ∃ bs, mapE f l = .ok bs := by
  intro l
  induction l with
  | nil => exact fun _ => ⟨[], rfl⟩
  | cons a as ih =>
    intro h
    obtain ⟨bs, hbs⟩ := ih (fun x hx => h x (by simp [hx]))
    have ha := h a (by simp)
    rcases hf : f a with e | b
    · rw [hf] at ha; cases ha
    · exact ⟨b :: bs, by rw [mapE, hf, hbs]⟩

/-! ## Concrete fixtures for witnesses and counterexamples -/

/-- A consistent rank table holding exactly the 256 single bytes, each
with its value as rank (`N = 256`). -/
def singles256 : RankTable := ⟨(List.range 256).map (fun b => ([b], b))⟩

/-- One special token named `<|a|>` at the first reserved id. -/
def exSpecials : SpecialTable := [("<|a|>".toList, 256)]

/-- A one-entry rank table whose only byte-string is the invalid UTF-8
byte `0xFF`. -/
def invalidByteTable : RankTable := ⟨[([255], 0)]⟩

instance {ε α : Type} [DecidableEq ε] [DecidableEq α] :
    DecidableEq (Except ε α) := fun x y =>
  match x, y with
  | .ok a, .ok b =>
    if h : a = b then isTrue (by rw [h])
    else isFalse (by intro hc; cases hc; exact h rfl)
  | .error a, .error b =>
    if h : a = b then isTrue (by rw [h])
    else isFalse (by intro hc; cases hc; exact h rfl)
  | .ok _, .error _ => isFalse (by intro hc; cases hc)
  | .error _, .ok _ => isFalse (by intro hc; cases hc)

set_option maxRecDepth 40000 in
theorem singles256_consistent : consistent singles256 := by decide

/-! ## Claims -/

/-- C1: for every text `T` containing no special-token name as a
substring, decoding the result of encoding `T` with
`allow_special_tokens=false` returns exactly `T`, given a consistent
rank table. -/
theorem C1_roundtrip (t : RankTable) (st : SpecialTable) (T : List Char)
    (hcons : consistent t) (hnospec : containsSpecialB st T = false) :
    ∃ ids, encode t st false T = .ok ids ∧ decodeIds t st ids = .ok T := by
  obtain ⟨ids, he, -, hd⟩ := decodeIds_encodeFalse t st hcons T
  exact ⟨ids, by simpa [encode] using he, hd⟩

/-- Witness for C1 at the text `"ab"` over the single-byte table. -/
theorem C1_roundtrip_witness :
    consistent singles256 ∧
      containsSpecialB exSpecials "ab".toList = false ∧
      ∃ ids, encode singles256 exSpecials false "ab".toList = .ok ids ∧
        decodeIds singles256 exSpecials ids = .ok "ab".toList :=
  ⟨singles256_consistent, by decide,
    C1_roundtrip singles256 exSpecials "ab".toList singles256_consistent
      (by decide)⟩

/-- C9: encoding the empty string yields the empty id sequence and
decoding the empty id sequence yields the empty string, for either
policy flag. -/
theorem C9_empty (t : RankTable) (st : SpecialTable) (flag : Bool) :
    encode t st flag [] = .ok [] ∧ decodeIds t st [] = .ok [] := by
  cases flag <;> exact ⟨rfl, rfl⟩

/-- C10: decode never raises on invalid UTF-8: whenever every id
resolves, decode returns a string (lenient policy), and on the
concrete unresolvable byte `0xFF` it returns the replacement marker. -/
theorem C10_lenient_decode (t : RankTable) (st : SpecialTable)
    (ids : List Nat) (h : ∀ i ∈ ids, isOkE (resolveId t st i) = true) :
    (∃ s, decodeIds t st ids = .ok s) ∧
      decodeIds invalidByteTable [] [0] = .ok [replChar] := by
  constructor
  · obtain ⟨bss, hbss⟩ := mapE_ok_of_all (resolveId t st) ids h
    exact ⟨utf8DecodeLenient bss.flatten, by rw [decodeIds, hbss]⟩
  · decide

/-- Witness for C10 at the id sequence `[0]` over the `0xFF` table. -/
theorem C10_lenient_decode_witness :
    (∀ i ∈ [0], isOkE (resolveId invalidByteTable [] i) = true) ∧
      (∃ s, decodeIds invalidByteTable [] [0] = .ok s) ∧
      decodeIds invalidByteTable [] [0] = .ok [replChar] :=
  ⟨by decide, C10_lenient_decode invalidByteTable [] [0] (by decide)⟩

/-- A malformed line makes the per-line parser fail. -/
theorem parseRankLine_error (line : String)
    (hmal : malformedRankLine line = true) :
    ∃ e, parseRankLine (pyStrip line) = .error e := by
  rw [malformedRankLine] at hmal
  rcases hsp : splitMax1 (pyStrip line) with _ | ⟨a, _ | ⟨b, _ | ⟨c, rest⟩⟩⟩ <;>
    rw [hsp] at hmal
  · exact ⟨.splitFailure, by simp [parseRankLine, hsp]⟩
  · exact ⟨.splitFailure, by simp [parseRankLine, hsp]⟩
  · have hmal' : intParse b = none := by
      simpa using hmal
    exact ⟨.rankParseFailure, by simp [parseRankLine, hsp, hmal']⟩
  · exact ⟨.splitFailure, by simp [parseRankLine, hsp]⟩

/-- A malformed, nonempty line anywhere in the file fails the loader
loop. -/
theorem buildRanksAux_error :
    ∀ (lines : List String) (acc : List (List Nat × Int)) (line : String),
      line ∈ lines → pyStrip line ≠ "" → malformedRankLine line = true →
      ∃ e, buildRanksAux acc lines = .error e := by
  intro lines
  induction lines with
  | nil => intro acc line hmem; cases hmem
  | cons l ls ih =>
    intro acc line hmem hne hmal
    rcases List.mem_cons.mp hmem with heq | hmem'
    · subst heq
      obtain ⟨e, he⟩ := parseRankLine_error line hmal
      refine ⟨e, ?_⟩
      rw [buildRanksAux]
      simp only [if_neg hne, he]
    · by_cases hemp : pyStrip l = ""
      · obtain ⟨e, he⟩ := ih acc line hmem' hne hmal
        exact ⟨e, by rw [buildRanksAux]; simp only [if_pos hemp]; exact he⟩
      · rcases hp : parseRankLine (pyStrip l) with e | ⟨bs, r⟩
        · exact ⟨e, by rw [buildRanksAux]; simp only [if_neg hemp, hp]⟩
        · obtain ⟨e, he⟩ := ih (dictInsert acc bs r) line hmem' hne hmal
          exact ⟨e, by rw [buildRanksAux]; simp only [if_neg hemp, hp]; exact he⟩

/-- C5: a rank-table file containing a nonempty line that does not
split into exactly a byte-string field and an integer field, or whose
rank field does not parse as an integer, fails to load with a
`LoadError`. -/
theorem C5_malformed_load (lines : List String) (line : String)
    (hmem : line ∈ lines) (hne : pyStrip line ≠ "")
    (hmal : malformedRankLine line = true) :
    ∃ e, buildRanks lines = .error e :=
  buildRanksAux_error lines [] line hmem hne hmal

/-- Witness for C5: a file whose second line has no rank field. -/
theorem C5_malformed_load_witness :
    ("YWI=" ∈ ["YQ== 1", "YWI="]) ∧ pyStrip "YWI=" ≠ "" ∧
      malformedRankLine "YWI=" = true ∧
      ∃ e, buildRanks ["YQ== 1", "YWI="] = .error e :=
  ⟨by decide, by decide, by decide,
    C5_malformed_load ["YQ== 1", "YWI="] "YWI=" (by decide) (by decide)
      (by decide)⟩

/-- C6: metadata entries whose key does not parse as an integer or
whose value lacks a string content field are skipped: the builder still
succeeds and such entries contribute nothing. -/
theorem C6_skip_malformed (pre post : List MetaEntry) (numBaseTokens : Nat)
    (e : MetaEntry) (hbad : intParse e.key = none ∨ e.content = none) :
    build_special_tokens (pre ++ e :: post) numBaseTokens =
      build_special_tokens (pre ++ post) numBaseTokens := by
  have hmap : buildMapping (pre ++ e :: post) = buildMapping (pre ++ post) := by
    rw [buildMapping, buildMapping, List.foldl_append, List.foldl_append,
      List.foldl_cons]
    rcases hbad with hb | hb
    · rw [hb]
    · rcases hik : intParse e.key with _ | k
      · rfl
      · rw [hb]
  rw [build_special_tokens, build_special_tokens, hmap]

/-- Witness for C6: an entry with unparseable key and an entry without
content both leave the table unchanged. -/
theorem C6_skip_malformed_witness :
    (intParse "x7" = none ∨ (⟨"x7", some "tok"⟩ : MetaEntry).content = none) ∧
      build_special_tokens [⟨"0", some "A"⟩, ⟨"x7", some "tok"⟩] 0 =
        build_special_tokens [⟨"0", some "A"⟩] 0 :=
  ⟨Or.inl (by decide),
    C6_skip_malformed [⟨"0", some "A"⟩] [] 0 ⟨"x7", some "tok"⟩
      (Or.inl (by decide))⟩

/-- Digits are not Han, not letters, not lead codepoints. -/
theorem digit_classes (c : Char) (h : isDigitC c = true) :
    isHanC c = false ∧ isUpperF c = false ∧ isLowerF c = false ∧
      isLeadC c = false := by
  have hd : 48 ≤ c.toNat ∧ c.toNat ≤ 57 := by
    simpa [isDigitC] using h
  refine ⟨?_, ?_, ?_, ?_⟩
  · simp only [isHanC, decide_eq_false_iff_not]; omega
  · simp only [isUpperF, decide_eq_false_iff_not]; omega
  · simp only [isLowerF, decide_eq_false_iff_not]; omega
  · simp [isLeadC, h]

/-- An all-satisfying list is its own `takeWhile`. -/
theorem takeWhile_of_all {p : Char → Bool} :
    ∀ cs : List Char, (∀ c ∈ cs, p c = true) → cs.takeWhile p = cs := by
  intro cs
  induction cs with
  | nil => intro _; rfl
  | cons c rest ih =>
    intro h
    rw [List.takeWhile_cons, if_pos (h c (by simp))]
    rw [ih (fun x hx => h x (by simp [hx]))]

/-- On a nonempty all-digit input the first matching rule is rule 4,
matching `min length 3` digits. -/
theorem matchStep_digits (cs : List Char) (hne : cs ≠ [])
    (hall : ∀ c ∈ cs, isDigitC c = true) :
    matchStep cs = some (min cs.length 3) := by
  obtain ⟨c, rest, rfl⟩ := List.exists_cons_of_ne_nil hne
  have hc := hall c (by simp)
  obtain ⟨hhan, hup, hlow, hlead⟩ := digit_classes c hc
  have h1 : rule1 (c :: rest) = none := by
    simp [rule1, runLen, List.takeWhile_cons, hhan]
  have hld : leadLen (c :: rest) = 0 := by simp [leadLen, hlead]
  have h2 : rule2 (c :: rest) = none := by
    simp [rule2, hld, runLen, List.takeWhile_cons, hup, hlow]
  have h3 : rule3 (c :: rest) = none := by
    simp [rule3, hld, runLen, List.takeWhile_cons, hup]
  have hdr : runLen isDigitC (c :: rest) = (c :: rest).length := by
    rw [runLen, takeWhile_of_all (c :: rest) hall]
  have h4 : rule4 (c :: rest) = some (min (c :: rest).length 3) := by
    rw [rule4, hdr]
    rw [if_neg (by simp)]
  rw [matchStep, h1, h2, h3, h4]
  rfl

/-- Segmentation of an all-digit text yields nonempty all-digit chunks
of at most three digits. -/
theorem segmentAux_digits :
    ∀ (fuel : Nat) (cs : List Char), cs.length ≤ fuel →
      (∀ c ∈ cs, isDigitC c = true) →
      ∀ ch ∈ segmentAux fuel cs,
        ch ≠ [] ∧ ch.length ≤ 3 ∧ ∀ c ∈ ch, isDigitC c = true := by
  intro fuel
  induction fuel with
  | zero =>
    intro cs hlen _ ch hch
    have : cs = [] := by cases cs with
      | nil => rfl
      | cons c rest => simp at hlen
    subst this
    simp [segmentAux] at hch
  | succ g ih =>
    intro cs hlen hall ch hch
    cases cs with
    | nil => simp [segmentAux] at hch
    | cons c rest =>
      rw [show segmentAux (g + 1) (c :: rest) =
            match matchStep (c :: rest) with
            | none => [c :: rest]
            | some n => (c :: rest).take n :: segmentAux g ((c :: rest).drop n)
          from rfl,
        matchStep_digits (c :: rest) (by simp) hall] at hch
      rcases List.mem_cons.mp hch with heq | hmem
      · subst heq
        refine ⟨?_, ?_, ?_⟩
        · intro hnil
          have hl := congrArg List.length hnil
          rw [List.length_take, List.length_cons, List.length_nil] at hl
          omega
        · simp [List.length_take]
        · intro x hx
          exact hall x (List.take_subset _ _ hx)
      · have hsub : ∀ x ∈ (c :: rest).drop (min (c :: rest).length 3),
            isDigitC x = true :=
          fun x hx => hall x (List.drop_subset _ _ hx)
        have hdl : ((c :: rest).drop (min (c :: rest).length 3)).length ≤ g := by
          rw [List.length_drop]
          simp at hlen ⊢
          omega
        exact ih _ hdl hsub ch hmem

/-- C7: decimal-digit runs segment into chunks of at most 3 digits; in
particular `"12345"` segments into `"123"` then `"45"`. -/
theorem C7_digit_truncation :
    (∀ cs : List Char, (∀ c ∈ cs, isDigitC c = true) →
        ∀ ch ∈ segment cs,
          ch ≠ [] ∧ ch.length ≤ 3 ∧ ∀ c ∈ ch, isDigitC c = true) ∧
      segment "12345".toList = ["123".toList, "45".toList] := by
  constructor
  · intro cs hall ch hch
    exact segmentAux_digits cs.length cs (le_refl _) hall ch hch
  · decide

/-- Witness for C7 at the all-digit input `"1234567"`. -/
theorem C7_digit_truncation_witness :
    (∀ c ∈ "1234567".toList, isDigitC c = true) ∧
      ∀ ch ∈ segment "1234567".toList,
        ch ≠ [] ∧ ch.length ≤ 3 ∧ ∀ c ∈ ch, isDigitC c = true :=
  ⟨by decide, C7_digit_truncation.1 "1234567".toList (by decide)⟩

/-- A nonempty special name occurs in itself, so the forbid policy
flags it. -/
theorem containsSpecialB_self (st : SpecialTable) (name : List Char)
    (id : Nat) (hmem : (name, id) ∈ st) (hne : name ≠ []) :
    containsSpecialB st name = true := by
  rw [containsSpecialB, List.any_eq_true]
  refine ⟨(name, id), hmem, ?_⟩
  simp only [Bool.and_eq_true, decide_eq_true_eq]
  refine ⟨hne, ?_⟩
  rw [List.any_eq_true]
  refine ⟨0, by simp, ?_⟩
  simpa using List.isPrefixOf_iff_prefix.mpr (List.prefix_refl name)

/-- C2 counterexample: the input text equal to the special-token name
`<|a|>` is encoded by the `allow_special_tokens=false` path into
ordinary byte ids — no `DisallowedSpecialTokenError` is raised. -/
theorem C2_counterexample :
    (("<|a|>".toList, 256) ∈ exSpecials) ∧
      encode singles256 exSpecials false "<|a|>".toList =
        .ok [60, 124, 97, 124, 62] := by
  exact ⟨by simp [exSpecials], by decide⟩

/-- C2 (amended): with `allow_special_tokens=false` the oracle's encode
path (`disallowed_special=()`) treats a special-token name as ordinary
text: it succeeds and returns only base-vocabulary ids, never the
reserved id and never an error; a `DisallowedSpecialTokenError` arises
only under the spec's forbid policy, which `main` does not select. -/
theorem C2_plain_text (t : RankTable) (st : SpecialTable) (name : List Char)
    (id : Nat) (hcons : consistent t) (hmem : (name, id) ∈ st)
    (hne : name ≠ []) :
    (∃ ids, encode t st false name = .ok ids ∧ ∀ i ∈ ids, i < numBase t) ∧
      encodeForbid t st name = .error .disallowedSpecialToken := by
  constructor
  · obtain ⟨ids, he, hlt, -⟩ := encodeFalse_spec t st hcons name
    exact ⟨ids, by simpa [encode] using he, hlt⟩
  · rw [encodeForbid, if_pos (containsSpecialB_self st name id hmem hne)]

/-- Witness for C2 (amended) at the name `<|a|>` over the single-byte
table. -/
theorem C2_plain_text_witness :
    consistent singles256 ∧ (("<|a|>".toList, 256) ∈ exSpecials) ∧
      "<|a|>".toList ≠ [] ∧
      ((∃ ids, encode singles256 exSpecials false "<|a|>".toList = .ok ids ∧
          ∀ i ∈ ids, i < numBase singles256) ∧
        encodeForbid singles256 exSpecials "<|a|>".toList =
          .error .disallowedSpecialToken) :=
  ⟨singles256_consistent, by decide, by decide,
    C2_plain_text singles256 exSpecials "<|a|>".toList 256
      singles256_consistent (by decide) (by decide)⟩

/-! ## Special-token scanner lemmas -/

/-- The fold behind `specialsAt` either keeps its accumulator or
returns a qualifying table entry. -/
theorem specialsFold_cases (cs : List Char) :
    ∀ (l : List (List Char × Nat)) (acc : Option (List Char × Nat)),
      l.foldl (specialsStep cs) acc = acc ∨
        ∃ q ∈ l, l.foldl (specialsStep cs) acc = some q ∧ q.1 ≠ [] ∧
          q.1.isPrefixOf cs = true := by
  intro l
  induction l with
  | nil => intro acc; exact Or.inl rfl
  | cons p rest ih =>
    intro acc
    rw [List.foldl_cons]
    by_cases hq : p.1 ≠ [] ∧ p.1.isPrefixOf cs
    · have hstep : specialsStep cs acc p = acc ∨ specialsStep cs acc p = some p := by
        simp only [specialsStep]
        rw [if_pos hq]
        rcases acc with _ | q
        · exact Or.inr rfl
        · show (if q.1.length < p.1.length then some p else some q) = some q ∨
            (if q.1.length < p.1.length then some p else some q) = some p
          by_cases hl : q.1.length < p.1.length
          · rw [if_pos hl]; exact Or.inr rfl
          · rw [if_neg hl]; exact Or.inl rfl
      rcases hstep with hstep | hstep <;> rw [hstep]
      · rcases ih acc with h | ⟨q, hqm, hqe, hqp⟩
        · exact Or.inl h
        · exact Or.inr ⟨q, by simp [hqm], hqe, hqp⟩
      · rcases ih (some p) with h | ⟨q, hqm, hqe, hqp⟩
        · exact Or.inr ⟨p, by simp, by rw [h], hq.1,
            by simpa using hq.2⟩
        · exact Or.inr ⟨q, by simp [hqm], hqe, hqp⟩
    · simp only [specialsStep]
      rw [if_neg hq]
      rcases ih acc with h | ⟨q, hqm, hqe, hqp⟩
      · exact Or.inl h
      · exact Or.inr ⟨q, by simp [hqm], hqe, hqp⟩

/-- A successful `specialsAt` returns a qualifying table entry. -/
theorem specialsAt_mem (st : SpecialTable) (cs : List Char)
    (n : List Char) (id : Nat) (h : specialsAt st cs = some (n, id)) :
    (n, id) ∈ st ∧ n ≠ [] ∧ n.isPrefixOf cs = true := by
  rcases specialsFold_cases cs st none with hc | ⟨q, hqm, hqe, hqe', hqp⟩
  · rw [specialsAt] at h
    rw [hc] at h
    cases h
  · rw [specialsAt] at h
    rw [hqe] at h
    cases h
    exact ⟨hqm, hqe', hqp⟩

/-- Once the fold's accumulator is a value it stays a value. -/
theorem specialsFold_some (cs : List Char) :
    ∀ (l : List (List Char × Nat)) (q : List Char × Nat),
      ∃ r, l.foldl (specialsStep cs) (some q) = some r := by
  intro l
  induction l with
  | nil => intro q; exact ⟨q, rfl⟩
  | cons p rest ih =>
    intro q
    rw [List.foldl_cons]
    have : ∃ r, specialsStep cs (some q) p = some r := by
      simp only [specialsStep]
      by_cases hq : p.1 ≠ [] ∧ p.1.isPrefixOf cs
      · rw [if_pos hq]
        by_cases hl : q.1.length < p.1.length
        · exact ⟨p, by rw [if_pos hl]⟩
        · exact ⟨q, by rw [if_neg hl]⟩
      · exact ⟨q, by rw [if_neg hq]⟩
    obtain ⟨r, hr⟩ := this
    rw [hr]
    exact ih r

/-- A failed `specialsAt` means no nonempty name matches at the head. -/
theorem specialsAt_none (st : SpecialTable) (cs : List Char)
    (h : specialsAt st cs = none) :
    ∀ p ∈ st, p.1 ≠ [] → p.1.isPrefixOf cs = false := by
  induction st with
  | nil => intro p hp; cases hp
  | cons x rest ih =>
    intro p hp hpne
    rw [specialsAt, List.foldl_cons] at h
    by_cases hx : x.1 ≠ [] ∧ x.1.isPrefixOf cs
    · simp only [specialsStep] at h
      rw [if_pos hx] at h
      obtain ⟨r, hr⟩ := specialsFold_some cs rest x
      rw [hr] at h
      cases h
    · rcases List.mem_cons.mp hp with heq | hmem
      · subst heq
        cases hb : p.1.isPrefixOf cs with
        | false => rfl
        | true => exact absurd ⟨hpne, hb⟩ hx
      · simp only [specialsStep] at h
        rw [if_neg hx] at h
        exact ih h p hmem hpne

/-- A successful `findSpecial` returns a table entry with a nonempty
name matching at the reported position, in bounds. -/
theorem findSpecial_mem (st : SpecialTable) :
    ∀ (cs : List Char) (i : Nat) (n : List Char) (id : Nat),
      findSpecial st cs = some (i, n, id) →
      (n, id) ∈ st ∧ n ≠ [] ∧ n.isPrefixOf (cs.drop i) = true := by
  intro cs
  induction cs with
  | nil => intro i n id h; cases h
  | cons c rest ih =>
    intro i n id h
    rw [findSpecial] at h
    rcases hs : specialsAt st (c :: rest) with _ | ⟨n', id'⟩ <;> rw [hs] at h
    · rcases hf : findSpecial st rest with _ | ⟨j, m, mid⟩ <;> rw [hf] at h
      · cases h
      · obtain ⟨hm, hne, hp⟩ := ih j m mid hf
        simp only [Option.map_some', Option.some.injEq, Prod.mk.injEq] at h
        obtain ⟨hi, hn, hid⟩ := h
        subst hi
        subst hn
        subst hid
        exact ⟨hm, hne, by simpa using hp⟩
    · simp only [Option.some.injEq, Prod.mk.injEq] at h
      obtain ⟨hi, hn, hid⟩ := h
      subst hi
      obtain ⟨hm, hne, hp⟩ := specialsAt_mem st (c :: rest) n' id' hs
      exact ⟨hn ▸ hid ▸ hm, hn ▸ hne,
        by rw [List.drop_zero]; exact hn ▸ hp⟩

/-- `encodeFalse` only produces base-vocabulary ranks. -/
theorem encodeFalse_range (t : RankTable) (hcons : consistent t)
    (cs : List Char) (ids : List Nat) (h : encodeFalse t cs = .ok ids) :
    ∀ i ∈ ids, i < numBase t := by
  obtain ⟨ids', he, hlt, -⟩ := encodeFalse_spec t [] hcons cs
  rw [he] at h
  cases h
  exact hlt

/-- The `allowed_special="all"` loop only produces ids below `N + 256`,
given a special table within the reserved range. -/
theorem encodeTrueAux_range (t : RankTable) (st : SpecialTable)
    (hcons : consistent t) (hst : ∀ p ∈ st, p.2 < numBase t + 256) :
    ∀ (fuel : Nat) (cs : List Char) (ids : List Nat),
      encodeTrueAux t st fuel cs = .ok ids → ∀ i ∈ ids, i < numBase t + 256 := by
  intro fuel
  induction fuel with
  | zero =>
    intro cs ids h i hi
    have := encodeFalse_range t hcons cs ids h i hi
    omega
  | succ g ih =>
    intro cs ids h i hi
    rcases hf : findSpecial st cs with _ | ⟨j, n, id⟩
    · rw [encodeTrueAux] at h
      rw [hf] at h
      have := encodeFalse_range t hcons cs ids h i hi
      omega
    · rcases ha : encodeFalse t (cs.take j) with e | a
      · rw [encodeTrueAux] at h
        simp [hf, ha] at h
      · rcases hb : encodeTrueAux t st g (cs.drop (j + n.length)) with e | b
        · rw [encodeTrueAux] at h
          simp [hf, ha, hb] at h
        · rw [encodeTrueAux] at h
          simp only [hf, ha, hb] at h
          have hids : a ++ id :: b = ids := by simpa using h
          subst hids
          rcases List.mem_append.mp hi with hia | hib
          · have := encodeFalse_range t hcons (cs.take j) a ha i hia
            omega
          · rcases List.mem_cons.mp hib with heq | hib'
            · obtain ⟨hm, -, -⟩ := findSpecial_mem st cs j n id hf
              exact heq ▸ hst (n, id) hm
            · exact ih (cs.drop (j + n.length)) b hb i hib'

/-- Resolution of an id is either a success or precisely an
unknown-token-id failure. -/
theorem resolveId_shape (t : RankTable) (st : SpecialTable) (i : Nat) :
    (∃ bs, resolveId t st i = .ok bs) ∨
      resolveId t st i = .error (.unknownTokenId i) := by
  rcases hbo : byteOfRank t i with _ | bs
  · rcases hsf : st.find? (fun p => p.2 == i) with _ | p
    · exact Or.inr (by rw [resolveId, hbo, hsf])
    · exact Or.inl ⟨utf8Enc p.1, by rw [resolveId, hbo, hsf]⟩
  · exact Or.inl ⟨bs, by rw [resolveId, hbo]⟩

/-- If some id in the sequence fails to resolve, decode's resolution
pass fails with an unknown-token-id error. -/
theorem mapE_resolve_error (t : RankTable) (st : SpecialTable) :
    ∀ (ids : List Nat) (j : Nat), j ∈ ids →
      resolveId t st j = .error (.unknownTokenId j) →
      ∃ k, mapE (resolveId t st) ids = .error (.unknownTokenId k) := by
  intro ids
  induction ids with
  | nil => intro j hj; cases hj
  | cons a rest ih =>
    intro j hj herr
    rcases resolveId_shape t st a with ⟨bs, hok⟩ | herra
    · rcases List.mem_cons.mp hj with heq | hmem
      · subst heq
        rw [hok] at herr
        cases herr
      · obtain ⟨k, hk⟩ := ih j hmem herr
        refine ⟨k, ?_⟩
        rw [mapE, hok, hk]
    · exact ⟨a, by rw [mapE, herra]⟩

/-- C8: every id produced by encode (either policy flag) lies in
`[0, N + 256)`, and decode rejects any id sequence containing an id at
or above `N + 256` with an `UnknownTokenIdError`. -/
theorem C8_id_range (t : RankTable) (st : SpecialTable)
    (hcons : consistent t) (hst : ∀ p ∈ st, p.2 < numBase t + 256) :
    (∀ (flag : Bool) (T : List Char) (ids : List Nat),
        encode t st flag T = .ok ids → ∀ i ∈ ids, i < numBase t + 256) ∧
      ∀ (ids : List Nat) (j : Nat), j ∈ ids → numBase t + 256 ≤ j →
        ∃ k, decodeIds t st ids = .error (.unknownTokenId k) := by
  constructor
  · intro flag T ids henc i hi
    cases flag with
    | false =>
      have := encodeFalse_range t hcons T ids (by simpa [encode] using henc) i hi
      omega
    | true =>
      exact encodeTrueAux_range t st hcons hst (T.length + 1) T ids
        (by simpa [encode, encodeTrue] using henc) i hi
  · intro ids j hj hge
    have hbo : byteOfRank t j = none := by
      rw [byteOfRank]
      rw [List.find?_eq_none.mpr]
      · rfl
      · intro p hp
        have := hcons.2.1 p hp
        simp only [beq_iff_eq]
        omega
    have hsf : st.find? (fun p => p.2 == j) = none := by
      rw [List.find?_eq_none.mpr]
      intro p hp
      have := hst p hp
      simp only [beq_iff_eq]
      omega
    have herr : resolveId t st j = .error (.unknownTokenId j) := by
      rw [resolveId, hbo, hsf]
    obtain ⟨k, hk⟩ := mapE_resolve_error t st ids j hj herr
    exact ⟨k, by rw [decodeIds, hk]⟩

set_option maxRecDepth 40000 in
/-- Witness for C8 over the single-byte table with one special token. -/
theorem C8_id_range_witness :
    consistent singles256 ∧
      (∀ p ∈ exSpecials, p.2 < numBase singles256 + 256) ∧
      ((∀ (flag : Bool) (T : List Char) (ids : List Nat),
          encode singles256 exSpecials flag T = .ok ids →
            ∀ i ∈ ids, i < numBase singles256 + 256) ∧
        ∀ (ids : List Nat) (j : Nat), j ∈ ids →
          numBase singles256 + 256 ≤ j →
          ∃ k, decodeIds singles256 exSpecials ids =
            .error (.unknownTokenId k)) :=
  ⟨singles256_consistent, by decide,
    C8_id_range singles256 exSpecials singles256_consistent (by decide)⟩

/-- Python-dict insertion preserves a pairwise property. -/
theorem dictInsert_pred {P : String × Nat → Prop} (d : List (String × Nat))
    (k : String) (v : Nat) (hall : ∀ p ∈ d, P p) (hkv : P (k, v)) :
    ∀ p ∈ dictInsert d k v, P p := by
  intro p hp
  rw [dictInsert] at hp
  split at hp
  · obtain ⟨q, hq, hqe⟩ := List.mem_map.mp hp
    by_cases hqk : q.1 == k
    · rw [if_pos hqk] at hqe
      exact hqe ▸ hkv
    · rw [if_neg hqk] at hqe
      exact hqe ▸ hall q hq
  · rcases List.mem_append.mp hp with h | h
    · exact hall p h
    · have : p = (k, v) := by simpa using h
      exact this ▸ hkv

/-- Folding dict insertions preserves a pairwise property. -/
theorem foldl_insert_pred (P : String × Nat → Prop) (f1 : Nat → String)
    (f2 : Nat → Nat) :
    ∀ (l : List Nat) (acc : List (String × Nat)),
      (∀ p ∈ acc, P p) → (∀ k ∈ l, P (f1 k, f2 k)) →
      ∀ p ∈ l.foldl (fun st k => dictInsert st (f1 k) (f2 k)) acc, P p := by
  intro l
  induction l with
  | nil => intro acc hacc _ p hp; exact hacc p hp
  | cons k l ih =>
    intro acc hacc hl p hp
    rw [List.foldl_cons] at hp
    exact ih (dictInsert acc (f1 k) (f2 k))
      (dictInsert_pred acc (f1 k) (f2 k) hacc (hl k (by simp)))
      (fun j hj => hl j (by simp [hj])) p hp

/-- With metadata assigning the same content string `"A"` to ids `0`
and `1` over an empty base vocabulary, no entry of the built table
carries id `0`. -/
theorem build_dup_no_id0 :
    ∀ p ∈ build_special_tokens [⟨"0", some "A"⟩, ⟨"1", some "A"⟩] 0,
      p.2 ≠ 0 := by
  intro p hp
  simp only [build_special_tokens] at hp
  rw [show List.range NUM_RESERVED_SPECIAL_TOKENS =
      [0, 1] ++ List.range' 2 254 from by rfl,
    List.foldl_append] at hp
  rw [show List.foldl
      (fun st k =>
        dictInsert st
          (computedName (buildMapping [⟨"0", some "A"⟩, ⟨"1", some "A"⟩])
            (0 + k)) (0 + k)) [] [0, 1] = [("A", 1)] from by decide] at hp
  exact foldl_insert_pred (fun q => q.2 ≠ 0) _ _ (List.range' 2 254)
    [("A", 1)] (by intro q hq; simp at hq; simp [hq])
    (by
      intro k hk
      have := List.mem_range'_1.mp hk
      simp
      omega)
    p hp

/-- C4 counterexample: with metadata assigning the same content string
`"A"` to ids `0` and `1` over an empty base vocabulary, the name-keyed
`special_tokens` dict collapses the two entries and id `0` (inside the
reserved range `[0, 256)`) is left with no name at all: the claim's
totality over the reserved range fails at this concrete input. -/
theorem C4_counterexample :
    (build_special_tokens [⟨"0", some "A"⟩, ⟨"1", some "A"⟩] 0).all
      (fun p => p.2 != 0) = true := by
  rw [List.all_eq_true]
  intro p hp
  simpa using build_dup_no_id0 p hp

/-- `Char.ofNat` inverts `Char.toNat` below the surrogate range. -/
theorem charOfNat_toNat_small (n : Nat) (h : n < 55296) :
    (Char.ofNat n).toNat = n := by
  simp [Char.ofNat, Char.toNat, Nat.isValidChar, h, Char.ofNatAux,
    UInt32.toNat, BitVec.toNat_ofNatLt]

/-- Decimal value of a digit-character list. -/
def digitsValue (cs : List Char) : Nat :=
  cs.foldl (fun a c => a * 10 + (c.toNat - 48)) 0

/-- Appending a digit multiplies the value by ten and adds the digit. -/
theorem digitsValue_append_digit (xs : List Char) (d : Char) :
    digitsValue (xs ++ [d]) = digitsValue xs * 10 + (d.toNat - 48) := by
  rw [digitsValue, digitsValue, List.foldl_append]
  rfl

/-- The decimal rendering evaluates back to its number. -/
theorem natDecimalAux_val :
    ∀ (fuel n : Nat), n < fuel → digitsValue (natDecimalAux fuel n) = n := by
  intro fuel
  induction fuel with
  | zero => intro n h; omega
  | succ f ih =>
    intro n h
    rw [natDecimalAux]
    by_cases h10 : n < 10
    · rw [if_pos h10]
      have hc : (Char.ofNat (48 + n)).toNat = 48 + n :=
        charOfNat_toNat_small (48 + n) (by omega)
      simp [digitsValue, hc]
    · rw [if_neg h10, digitsValue_append_digit,
        ih (n / 10) (by omega),
        charOfNat_toNat_small (48 + n % 10) (by omega)]
      omega

/-- Decimal rendering is injective. -/
theorem natDecimal_inj : Function.Injective natDecimal := by
  intro m n h
  have hd : natDecimalAux (m + 1) m = natDecimalAux (n + 1) n :=
    congrArg String.data h
  have := congrArg digitsValue hd
  rw [natDecimalAux_val (m + 1) m (by omega),
    natDecimalAux_val (n + 1) n (by omega)] at this
  exact this

/-- The synthetic placeholder names are injective in the id. -/
theorem placeholder_inj :
    Function.Injective
      (fun id : Nat => "<|reserved_token_" ++ natDecimal id ++ "|>") := by
  intro a b h
  have hd := congrArg String.data h
  simp only [String.data_append, List.append_assoc] at hd
  exact natDecimal_inj
    (String.ext (List.append_cancel_right (List.append_cancel_left hd)))

/-- Inserting pairwise-fresh keys is plain appending. -/
theorem foldl_dictInsert_fresh :
    ∀ (l acc : List (String × Nat)),
      (l.map (fun p => p.1)).Nodup →
      (∀ n ∈ l.map (fun p => p.1), acc.any (fun p => p.1 == n) = false) →
      l.foldl (fun st p => dictInsert st p.1 p.2) acc = acc ++ l := by
  intro l
  induction l with
  | nil => intro acc _ _; simp
  | cons p l ih =>
    intro acc hnd hfr
    rw [List.foldl_cons]
    have hp1 : acc.any (fun q => q.1 == p.1) = false :=
      hfr p.1 (by simp)
    have hstep : dictInsert acc p.1 p.2 = acc ++ [(p.1, p.2)] := by
      rw [dictInsert, if_neg (by simp [hp1])]
    rw [hstep]
    have hnd' : (l.map (fun p => p.1)).Nodup := by
      simpa using hnd.of_cons
    have hnotin : p.1 ∉ l.map (fun p => p.1) := by
      have := hnd
      simp only [List.map_cons, List.nodup_cons] at this
      exact this.1
    have hfr' : ∀ n ∈ l.map (fun p => p.1),
        (acc ++ [(p.1, p.2)]).any (fun q => q.1 == n) = false := by
      intro n hn
      rw [List.any_append]
      have h1 : acc.any (fun q => q.1 == n) = false :=
        hfr n (by simp; right; simpa using hn)
      have h2 : (p.1 == n) = false := by
        rw [beq_eq_false_iff_ne]
        intro hc
        exact hnotin (hc ▸ hn)
      simp [h1, h2]
    rw [ih (acc ++ [(p.1, p.2)]) hnd' hfr']
    simp

/-- The reserved-range pair list inserted by `build_special_tokens`. -/
def reservedPairs (entries : List MetaEntry) (numBaseTokens : Nat) :
    List (String × Nat) :=
  (List.range NUM_RESERVED_SPECIAL_TOKENS).map
    (fun k => (computedName (buildMapping entries) (numBaseTokens + k),
      numBaseTokens + k))

/-- When the computed names are pairwise distinct, the built table is
exactly the reserved-range pair list. -/
theorem build_special_tokens_eq (entries : List MetaEntry)
    (numBaseTokens : Nat)
    (hnd : ((List.range NUM_RESERVED_SPECIAL_TOKENS).map
      (fun k => computedName (buildMapping entries)
        (numBaseTokens + k))).Nodup) :
    build_special_tokens entries numBaseTokens =
      reservedPairs entries numBaseTokens := by
  have hmap : (reservedPairs entries numBaseTokens).map (fun p => p.1) =
      (List.range NUM_RESERVED_SPECIAL_TOKENS).map
        (fun k => computedName (buildMapping entries) (numBaseTokens + k)) := by
    rw [reservedPairs, List.map_map]
    rfl
  have hfold : build_special_tokens entries numBaseTokens =
      (reservedPairs entries numBaseTokens).foldl
        (fun st p => dictInsert st p.1 p.2) [] := by
    rw [build_special_tokens, reservedPairs, List.foldl_map]
  rw [hfold, foldl_dictInsert_fresh _ [] (hmap ▸ hnd) (fun n _ => rfl),
    List.nil_append]

/-- C4 (amended): for every base size and metadata table, a name is
computed for every id in the reserved range (the metadata content for
that exact id when present, the synthetic placeholder otherwise), and
when those 256 computed names are pairwise distinct, the built table is
total over the reserved range: each id in it carries exactly its
computed name. -/
theorem C4_total_table (entries : List MetaEntry) (numBaseTokens : Nat)
    (hnd : ((List.range NUM_RESERVED_SPECIAL_TOKENS).map
      (fun k => computedName (buildMapping entries)
        (numBaseTokens + k))).Nodup) :
    ∀ id, numBaseTokens ≤ id → id < numBaseTokens + 256 →
      (computedName (buildMapping entries) id, id) ∈
        build_special_tokens entries numBaseTokens ∧
      ∀ p ∈ build_special_tokens entries numBaseTokens, p.2 = id →
        p.1 = computedName (buildMapping entries) id := by
  intro id hle hlt
  rw [build_special_tokens_eq entries numBaseTokens hnd]
  constructor
  · rw [reservedPairs]
    refine List.mem_map.mpr ⟨id - numBaseTokens, ?_, ?_⟩
    · rw [List.mem_range, NUM_RESERVED_SPECIAL_TOKENS]
      omega
    · have : numBaseTokens + (id - numBaseTokens) = id := by omega
      rw [this]
  · intro p hp hpid
    rw [reservedPairs] at hp
    obtain ⟨k, -, hk⟩ := List.mem_map.mp hp
    have h2 : numBaseTokens + k = id := by
      rw [← hpid, ← hk]
    rw [← hk]
    simp [h2]

/-- Over empty metadata every computed name is the placeholder, and the
256 placeholders are pairwise distinct. -/
theorem computedName_nil_nodup :
    ((List.range NUM_RESERVED_SPECIAL_TOKENS).map
      (fun k => computedName (buildMapping []) (0 + k))).Nodup := by
  have hinj : Function.Injective
      (fun k : Nat => computedName (buildMapping []) (0 + k)) := by
    intro a b h
    have := placeholder_inj h
    omega
  exact List.Nodup.map hinj (List.nodup_range NUM_RESERVED_SPECIAL_TOKENS)

/-- Witness for C4 (amended) with empty metadata and base size 0, at
reserved id 3. -/
theorem C4_total_table_witness :
    ((List.range NUM_RESERVED_SPECIAL_TOKENS).map
        (fun k => computedName (buildMapping []) (0 + k))).Nodup ∧
      ((computedName (buildMapping []) 3, 3) ∈ build_special_tokens [] 0 ∧
        ∀ p ∈ build_special_tokens [] 0, p.2 = 3 →
          p.1 = computedName (buildMapping []) 3) :=
  ⟨computedName_nil_nodup,
    C4_total_table [] 0 computedName_nil_nodup 3 (by omega) (by omega)⟩

/-! ## C3: special-token boundary -/

/-- Does `n` occur as the substring of `cs` starting at index `i`? -/
def occursAtB (n cs : List Char) (i : Nat) : Bool :=
  n.isPrefixOf (cs.drop i)

/-- Reserved id of the first table entry named `s`. -/
def stFind (st : SpecialTable) (s : List Char) : Option Nat :=
  (st.find? (fun p => p.1 == s)).map (fun p => p.2)

/-- A nonempty prefix of the empty list is impossible. -/
theorem isPrefixOf_nil_ne (n : List Char) (hne : n ≠ [])
    (h : n.isPrefixOf ([] : List Char) = true) : False := by
  rw [List.isPrefixOf_iff_prefix, List.prefix_nil] at h
  exact hne h

/-- If no nonempty name matches at the head, `specialsAt` fails. -/
theorem specialsAt_none_intro (st : SpecialTable) (cs : List Char)
    (h : ∀ p ∈ st, p.1 ≠ [] → p.1.isPrefixOf cs = false) :
    specialsAt st cs = none := by
  induction st with
  | nil => rfl
  | cons p rest ih =>
    rw [specialsAt, List.foldl_cons]
    have hstep : specialsStep cs none p = none := by
      simp only [specialsStep]
      rw [if_neg]
      intro ⟨h1, h2⟩
      rw [h p (by simp) h1] at h2
      cases h2
    rw [hstep]
    exact ih (fun q hq => h q (by simp [hq]))

/-- If no position of `cs` has a match, `findSpecial` fails. -/
theorem findSpecial_none_intro (st : SpecialTable) :
    ∀ cs : List Char, (∀ j : Nat, specialsAt st (cs.drop j) = none) →
      findSpecial st cs = none := by
  intro cs
  induction cs with
  | nil => intro _; rfl
  | cons c rest ih =>
    intro h
    rw [findSpecial]
    have h0 : specialsAt st (c :: rest) = none := by
      have := h 0
      simpa using this
    rw [h0, ih (fun j => by have := h (j + 1); simpa using this)]
    rfl

/-- Once no special has matched before position `i` and one matches at
`i`, `findSpecial` reports exactly position `i`'s match. -/
theorem findSpecial_intro (st : SpecialTable) :
    ∀ (cs : List Char) (i : Nat) (n : List Char) (id : Nat),
      (∀ j, j < i → specialsAt st (cs.drop j) = none) →
      specialsAt st (cs.drop i) = some (n, id) →
      findSpecial st cs = some (i, n, id) := by
  intro cs
  induction cs with
  | nil =>
    intro i n id _ hi
    obtain ⟨-, hne, hp⟩ := specialsAt_mem st _ n id hi
    exact absurd (by simpa using hp) (fun h => isPrefixOf_nil_ne n hne h)
  | cons c rest ih =>
    intro i n id hlt hi
    cases i with
    | zero =>
      rw [findSpecial]
      rw [List.drop_zero] at hi
      rw [hi]
    | succ j =>
      rw [findSpecial]
      have h0 : specialsAt st (c :: rest) = none := by
        have := hlt 0 (by omega)
        simpa using this
      rw [h0,
        ih j n id (fun j' hj' => by
          have := hlt (j' + 1) (by omega)
          simpa using this)
        (by simpa using hi)]
      rfl

/-- Folding from an `s`-named accumulator is stable when every
qualifying entry is named `s`. -/
theorem specialsFold_stable (cs s : List Char) (id0 : Nat) :
    ∀ l : List (List Char × Nat),
      (∀ p ∈ l, p.1 ≠ [] → p.1.isPrefixOf cs = true → p.1 = s) →
      l.foldl (specialsStep cs) (some (s, id0)) = some (s, id0) := by
  intro l
  induction l with
  | nil => intro _; rfl
  | cons p rest ih =>
    intro h
    rw [List.foldl_cons]
    have hstep : specialsStep cs (some (s, id0)) p = some (s, id0) := by
      simp only [specialsStep]
      by_cases hq : p.1 ≠ [] ∧ p.1.isPrefixOf cs
      · rw [if_pos hq]
        have hps : p.1 = s := h p (by simp) hq.1 hq.2
        rw [if_neg]
        simp [hps]
      · rw [if_neg hq]
    rw [hstep]
    exact ih (fun q hq => h q (by simp [hq]))

/-- When the only possible match at the head of `cs` is `s` itself and
the table's first `s`-entry has id `id`, `specialsAt` returns exactly
`(s, id)`. -/
theorem specialsAt_exact (cs s : List Char) (hsne : s ≠ [])
    (hs : s.isPrefixOf cs = true) :
    ∀ st : SpecialTable,
      (∀ p ∈ st, p.1 ≠ [] → p.1.isPrefixOf cs = true → p.1 = s) →
      ∀ id : Nat, stFind st s = some id →
      specialsAt st cs = some (s, id) := by
  intro st
  induction st with
  | nil =>
    intro _ id hfind
    rw [stFind] at hfind
    cases hfind
  | cons p rest ih =>
    intro hexact id hfind
    by_cases hp : p.1 == s
    · have hps : p.1 = s := by simpa using hp
      have hid : p.2 = id := by
        have hf : (p :: rest).find? (fun q => q.1 == s) = some p :=
          List.find?_cons_of_pos rest hp
        rw [stFind, hf] at hfind
        simpa using hfind
      have hpeq : p = (s, id) := by
        rw [← hps, ← hid]
      rw [specialsAt, List.foldl_cons]
      have hstep : specialsStep cs none p = some (s, id) := by
        simp only [specialsStep]
        rw [if_pos ⟨by rw [hps]; exact hsne, by rw [hps]; exact hs⟩, hpeq]
      rw [hstep]
      exact specialsFold_stable cs s id rest
        (fun q hq => hexact q (by simp [hq]))
    · have hfind' : stFind rest s = some id := by
        have hf : (p :: rest).find? (fun q => q.1 == s) =
            rest.find? (fun q => q.1 == s) :=
          List.find?_cons_of_neg rest (by simpa using hp)
        rw [stFind, hf] at hfind
        exact hfind
      have hnq : specialsStep cs none p = none := by
        simp only [specialsStep]
        rw [if_neg]
        intro ⟨h1, h2⟩
        have := hexact p (by simp) h1 h2
        rw [this] at hp
        simp at hp
      rw [specialsAt, List.foldl_cons, hnq]
      exact ih (fun q hq => hexact q (by simp [hq])) id hfind'

/-- Without a special match the `allowed_special` loop is the plain
encoder, for any fuel. -/
theorem encodeTrueAux_no_special (t : RankTable) (st : SpecialTable)
    (cs : List Char) (h : findSpecial st cs = none) :
    ∀ fuel : Nat, encodeTrueAux t st fuel cs = encodeFalse t cs := by
  intro fuel
  cases fuel with
  | zero => rfl
  | succ g =>
    rw [encodeTrueAux, h]

/-- One step of the `allowed_special` loop at a found special token. -/
theorem encodeTrueAux_step (t : RankTable) (st : SpecialTable) (fuel : Nat)
    (cs : List Char) (i : Nat) (n : List Char) (id : Nat) (a b : List Nat)
    (hf : findSpecial st cs = some (i, n, id))
    (ha : encodeFalse t (cs.take i) = .ok a)
    (hb : encodeTrueAux t st fuel (cs.drop (i + n.length)) = .ok b) :
    encodeTrueAux t st (fuel + 1) cs = .ok (a ++ id :: b) := by
  rw [encodeTrueAux, hf]
  show (match encodeFalse t (cs.take i) with
    | Except.error e => Except.error e
    | Except.ok a =>
      match encodeTrueAux t st fuel (cs.drop (i + n.length)) with
      | Except.error e => Except.error e
      | Except.ok b => Except.ok (a ++ id :: b)) = Except.ok (a ++ id :: b)
  rw [ha]
  show (match encodeTrueAux t st fuel (cs.drop (i + n.length)) with
    | Except.error e => Except.error e
    | Except.ok b => Except.ok (a ++ id :: b)) = Except.ok (a ++ id :: b)
  rw [hb]

/-- C3: when a special-token name `s` occurs in `pre ++ s ++ post` and
that occurrence is the only special-token occurrence in the text,
encoding with `allow_special_tokens=true` emits `s`'s reserved id at
the corresponding position, with the surrounding text encoded by
normal segmentation plus BPE merging. -/
theorem C3_special_boundary (t : RankTable) (st : SpecialTable)
    (pre s post : List Char) (id : Nat)
    (hfind : stFind st s = some id) (hne : s ≠ [])
    (honly : ∀ i, i < (pre ++ s ++ post).length + 1 → ∀ p ∈ st, p.1 ≠ [] →
      occursAtB p.1 (pre ++ s ++ post) i = true → i = pre.length ∧ p.1 = s)
    (idsPre idsPost : List Nat)
    (hpre : encodeFalse t pre = .ok idsPre)
    (hpost : encodeFalse t post = .ok idsPost) :
    encode t st true (pre ++ s ++ post) = .ok (idsPre ++ id :: idsPost) := by
  have hslen : 0 < s.length := List.length_pos.mpr hne
  have hL : (pre ++ s ++ post).length =
      pre.length + (s.length + post.length) := by
    rw [List.append_assoc, List.length_append, List.length_append]
  have hdrop_pre : (pre ++ s ++ post).drop pre.length = s ++ post := by
    rw [List.append_assoc]
    exact List.drop_left pre (s ++ post)
  have htake : (pre ++ s ++ post).take pre.length = pre := by
    rw [List.append_assoc]
    exact List.take_left pre (s ++ post)
  have hdrop_mid : ∀ j : Nat,
      (pre ++ s ++ post).drop (pre.length + s.length + j) = post.drop j := by
    intro j
    rw [List.append_assoc,
      show pre.length + s.length + j = pre.length + (s.length + j) from by omega,
      List.drop_append, List.drop_append]
  have hA : ∀ j, j < pre.length →
      specialsAt st ((pre ++ s ++ post).drop j) = none := by
    intro j hj
    refine specialsAt_none_intro st _ (fun p hp hpne => ?_)
    cases hb : p.1.isPrefixOf ((pre ++ s ++ post).drop j) with
    | false => rfl
    | true =>
      have hocc : occursAtB p.1 (pre ++ s ++ post) j = true := hb
      have := honly j (by rw [hL]; omega) p hp hpne hocc
      omega
  have hB : specialsAt st ((pre ++ s ++ post).drop pre.length) =
      some (s, id) := by
    rw [hdrop_pre]
    have hsp : s.isPrefixOf (s ++ post) = true := by
      simpa using List.isPrefixOf_iff_prefix.mpr (List.prefix_append s post)
    refine specialsAt_exact (s ++ post) s hne hsp st ?_ id hfind
    intro p hp hpne hpref
    have hocc : occursAtB p.1 (pre ++ s ++ post) pre.length = true := by
      rw [occursAtB, hdrop_pre]
      exact hpref
    exact (honly pre.length (by rw [hL]; omega) p hp hpne hocc).2
  have hC : findSpecial st (pre ++ s ++ post) =
      some (pre.length, s, id) :=
    findSpecial_intro st _ pre.length s id hA hB
  have hpost_none : findSpecial st post = none := by
    refine findSpecial_none_intro st post (fun j => ?_)
    refine specialsAt_none_intro st _ (fun p hp hpne => ?_)
    cases hb : p.1.isPrefixOf (post.drop j) with
    | false => rfl
    | true =>
      have hjlt : j < post.length := by
        by_contra hge
        rw [List.drop_eq_nil_of_le (by omega)] at hb
        exact isPrefixOf_nil_ne p.1 hpne hb
      have hocc : occursAtB p.1 (pre ++ s ++ post)
          (pre.length + s.length + j) = true := by
        rw [occursAtB, hdrop_mid j]
        exact hb
      have := honly (pre.length + s.length + j) (by rw [hL]; omega)
        p hp hpne hocc
      omega
  have hdrop0 : (pre ++ s ++ post).drop (pre.length + s.length) = post := by
    have := hdrop_mid 0
    simpa using this
  have hb : encodeTrueAux t st (pre ++ s ++ post).length
      ((pre ++ s ++ post).drop (pre.length + s.length)) = .ok idsPost := by
    rw [hdrop0, encodeTrueAux_no_special t st post hpost_none]
    exact hpost
  have ha : encodeFalse t ((pre ++ s ++ post).take pre.length) = .ok idsPre := by
    rw [htake]
    exact hpre
  exact encodeTrueAux_step t st (pre ++ s ++ post).length (pre ++ s ++ post)
    pre.length s id idsPre idsPost hC ha hb

/-- Witness for C3: `"hi" ++ "<|a|>" ++ "yo"` over the single-byte
table. -/
theorem C3_special_boundary_witness :
    stFind exSpecials "<|a|>".toList = some 256 ∧
      "<|a|>".toList ≠ ([] : List Char) ∧
      (∀ i, i < ("hi".toList ++ "<|a|>".toList ++ "yo".toList).length + 1 →
        ∀ p ∈ exSpecials, p.1 ≠ [] →
        occursAtB p.1 ("hi".toList ++ "<|a|>".toList ++ "yo".toList) i = true →
        i = "hi".toList.length ∧ p.1 = "<|a|>".toList) ∧
      encodeFalse singles256 "hi".toList = .ok [104, 105] ∧
      encodeFalse singles256 "yo".toList = .ok [121, 111] ∧
      encode singles256 exSpecials true
        ("hi".toList ++ "<|a|>".toList ++ "yo".toList) =
        .ok ([104, 105] ++ 256 :: [121, 111]) :=
  ⟨by decide, by decide, by decide, by decide, by decide,
    C3_special_boundary singles256 exSpecials "hi".toList "<|a|>".toList
      "yo".toList 256 (by decide) (by decide) (by decide) [104, 105]
      [121, 111] (by decide) (by decide)⟩

end KimiOracle
